import Mathlib

/-!
# HDLC frame-to-bitstream encoder (`hdlc_send.c`)

A shallow embedding of `src/hdlc_send.c` and proofs about it.

Modelling conventions.

* C `int` values are `Int`.  The bit operations the source applies to them are
  the two's-complement ones: `x & m` is `Int.land x m`, `x >> k` is the
  arithmetic shift `x >>> k` and `~x` is `~~~x`.  Signed overflow is undefined
  in C, so the counters are not wrapped.
* The three per-channel arrays `number_of_bits_sent`, `stuff` and `output`
  (one slot per channel, indexed by the channel number) are functions
  `Nat → Int`; `setAt` is the array store `a[i] = v`.
* The two external calls `tone_gen_put_bit` and `audio_flush` are recorded, in
  call order, in the `sink` field of the state.  The field `bit_log` is a
  history variable that records the `(chan, b)` arguments of every call of
  `send_bit`; the program never reads it.
* The external checksum `fcs_calc` (return type `unsigned short`) and the
  macro `ACHAN2ADEV` are parameters.
* A frame buffer is a list of bytes; a load `fbuf[j]` of an `unsigned char`
  is `fbuf.getD j 0 % 256`.  A load past the end of the buffer, undefined in C,
  reads 0; a loop `for (j = 0; j < flen; j++)` runs `flen.toNat` times, so not
  at all for `flen ≤ 0`.
-/

namespace HdlcSend

/-! ## Embedding of the source -/

/-- Constant `UNSCRAMBLED` of the source. -/
def UNSCRAMBLED : Int := 1

/-- Constant `SCRAMBLED` of the source. -/
def SCRAMBLED : Int := 0

/-- Constant `NO_NRZI` of the source: direct mapping of bits to levels. -/
def NO_NRZI : Int := 1

/-- Constant `NRZI` of the source: the NRZI transform is applied. -/
def NRZI : Int := 0

/-- One call to the external waveform sink. -/
inductive SinkEvent where
  | put_bit (chan : Nat) (level scr nrzi : Int)
  | flush (adev : Int)
  deriving DecidableEq

/-- The static storage of the file together with the history of external calls. -/
structure State where
  /-- Array `number_of_bits_sent[MAX_CHANS]`. -/
  number_of_bits_sent : Nat → Int
  /-- Array `stuff[MAX_CHANS]`. -/
  stuff : Nat → Int
  /-- Array `output[MAX_CHANS]`, static inside `send_bit`. -/
  output : Nat → Int
  /-- Calls of `tone_gen_put_bit` and `audio_flush`, oldest first. -/
  sink : List SinkEvent
  /-- History variable: arguments `(chan, b)` of every `send_bit` call, oldest first. -/
  bit_log : List (Nat × Int)

/-- Array store `a[i] = v`. -/
def setAt (a : Nat → Int) (i : Nat) (v : Int) : Nat → Int :=
  fun j => if j = i then v else a j

/-- The all-zero static storage a C program starts with. -/
def State.init : State :=
  { number_of_bits_sent := fun _ => 0
    stuff := fun _ => 0
    output := fun _ => 0
    sink := []
    bit_log := [] }

/-- Function `flip` of the source, on `uint8_t`: every assignment to `b` truncates to 8 bits. -/
def flip (b : Nat) : Nat :=
  let b := b % 256
  let b := (((b &&& 0xF0) >>> 4) ||| ((b &&& 0x0F) <<< 4)) % 256
  let b := (((b &&& 0xCC) >>> 2) ||| ((b &&& 0x33) <<< 2)) % 256
  let b := (((b &&& 0xAA) >>> 1) ||| ((b &&& 0x55) <<< 1)) % 256
  b

/-- Function `send_bit` of the source. -/
def send_bit (chan : Nat) (b scr nrzi : Int) (s : State) : State :=
  let output :=
    if nrzi ≠ 0 then setAt s.output chan b
    else if b = 0 then setAt s.output chan (if s.output chan = 0 then 1 else 0)
    else s.output
  { number_of_bits_sent := setAt s.number_of_bits_sent chan (s.number_of_bits_sent chan + 1)
    stuff := s.stuff
    output := output
    sink := s.sink ++ [SinkEvent.put_bit chan (output chan) scr nrzi]
    bit_log := s.bit_log ++ [(chan, b)] }

/-- The `for` loop of `send_control` with `n` iterations left. -/
def send_control_loop : Nat → Nat → Int → Int → Int → State → State
  | 0, _, _, _, _, s => s
  | n + 1, chan, x, scr, no_rzi, s =>
    send_control_loop n chan (x >>> (1 : Nat)) scr no_rzi (send_bit chan (Int.land x 1) scr no_rzi s)

/-- Function `send_control` of the source. -/
def send_control (chan : Nat) (x scr no_rzi : Int) (s : State) : State :=
  let s := send_control_loop 8 chan x scr no_rzi s
  { s with stuff := setAt s.stuff chan 0 }

/-- The body of the `for` loop of `send_data` for the current `x`, without the shift. -/
def send_data_step (chan : Nat) (x scr nrzi : Int) (s : State) : State :=
  let s := send_bit chan (Int.land x 1) scr nrzi s
  if Int.land x 1 ≠ 0 then
    let s := { s with stuff := setAt s.stuff chan (s.stuff chan + 1) }
    if s.stuff chan = 5 then
      let s := send_bit chan 0 scr nrzi s
      { s with stuff := setAt s.stuff chan 0 }
    else s
  else
    { s with stuff := setAt s.stuff chan 0 }

/-- The `for` loop of `send_data` with `n` iterations left. -/
def send_data_loop : Nat → Nat → Int → Int → Int → State → State
  | 0, _, _, _, _, s => s
  | n + 1, chan, x, scr, nrzi, s =>
    send_data_loop n chan (x >>> (1 : Nat)) scr nrzi (send_data_step chan x scr nrzi s)

/-- Function `send_data` of the source. -/
def send_data (chan : Nat) (x scr nrzi : Int) (s : State) : State :=
  send_data_loop 8 chan x scr nrzi s

/-- The `for` loop of `calc_data` with `n` iterations left, on the locals
`x`, `stuffing` and `bits_num`. -/
def calc_data_loop : Nat → Int → Int → Int → Int
  | 0, _, _, bits_num => bits_num
  | n + 1, x, stuffing, bits_num =>
    let bits_num := bits_num + 1
    if Int.land x 1 ≠ 0 then
      let stuffing := stuffing + 1
      if stuffing = 5 then calc_data_loop n (x >>> (1 : Nat)) 0 (bits_num + 1)
      else calc_data_loop n (x >>> (1 : Nat)) stuffing bits_num
    else calc_data_loop n (x >>> (1 : Nat)) 0 bits_num

/-- Function `calc_data` of the source. -/
def calc_data (x : Int) : Int :=
  calc_data_loop 8 x 0 0

/-- The value `fcs_calc (fbuf, flen)` as stored in the `int fcs`: an `unsigned short`. -/
def fcs_value (fcs_calc : List Nat → Int → Nat) (fbuf : List Nat) (flen : Int) : Int :=
  ((fcs_calc fbuf flen % 65536 : Nat) : Int)

/-- The load `fbuf[j]` of an `unsigned char`. -/
def load (fbuf : List Nat) (j : Nat) : Int :=
  ((fbuf.getD j 0 % 256 : Nat) : Int)

/-- Function `calculate_len` of the source.  The `double` accumulator holds
small integers only, so it is an exact integer sum. -/
def calculate_len (fcs_calc : List Nat → Int → Nat) (fbuf : List Nat) (flen : Int) : Int :=
  let bits_num := (List.range flen.toNat).foldl (fun acc j => acc + calc_data (load fbuf j)) 0
  let fcs := fcs_value fcs_calc fbuf flen
  let bits_num := bits_num + calc_data (Int.land fcs 0xff)
  let bits_num := bits_num + calc_data (Int.land (fcs >>> (8 : Nat)) 0xff)
  bits_num

/-- Function `hdlc_send_frame` of the source: returned value and final state. -/
def hdlc_send_frame (fcs_calc : List Nat → Int → Nat) (chan : Nat) (fbuf : List Nat)
    (flen bad_fcs : Int) (s : State) : Int × State :=
  let s := { s with number_of_bits_sent := setAt s.number_of_bits_sent chan 0 }
  let s := send_control chan 0x7e SCRAMBLED NRZI s
  let s := send_control chan 0x7e SCRAMBLED NRZI s
  let s := send_control chan 0x7e SCRAMBLED NRZI s
  let s := send_control chan 0x7e SCRAMBLED NRZI s
  let s := (List.range flen.toNat).foldl
    (fun s j => send_data chan (load fbuf j) SCRAMBLED NRZI s) s
  let fcs := fcs_value fcs_calc fbuf flen
  let s :=
    if bad_fcs ≠ 0 then
      let s := send_data chan (Int.land (~~~fcs) 0xff) SCRAMBLED NRZI s
      send_data chan (Int.land ((~~~fcs) >>> (8 : Nat)) 0xff) SCRAMBLED NRZI s
    else
      let s := send_data chan (Int.land fcs 0xff) SCRAMBLED NRZI s
      send_data chan (Int.land (fcs >>> (8 : Nat)) 0xff) SCRAMBLED NRZI s
  let s := send_control chan 0x7e SCRAMBLED NRZI s
  let s := send_control chan 0x7e SCRAMBLED NRZI s
  (s.number_of_bits_sent chan, s)

/-- Function `hdlc_send_flags` of the source: returned value and final state. -/
def hdlc_send_flags (ACHAN2ADEV : Nat → Int) (chan : Nat) (nflags finish : Int)
    (s : State) : Int × State :=
  let s := { s with number_of_bits_sent := setAt s.number_of_bits_sent chan 0 }
  let s := (List.range nflags.toNat).foldl
    (fun s _ => send_control chan 0x7e SCRAMBLED NRZI s) s
  let s := if finish ≠ 0 then { s with sink := s.sink ++ [SinkEvent.flush (ACHAN2ADEV chan)] } else s
  (s.number_of_bits_sent chan, s)

/-- The local `frame_len` of `hdlc_send_header`. -/
def frame_len (fcs_calc : List Nat → Int → Nat) (fbuf : List Nat) (flen : Int) : Int :=
  (calculate_len fcs_calc fbuf flen + 7 + 16 + 24) >>> (3 : Nat)

/-- Function `hdlc_send_header` of the source: returned value and final state. -/
def hdlc_send_header (fcs_calc : List Nat → Int → Nat) (chan : Nat) (fbuf : List Nat)
    (flen : Int) (s : State) : Int × State :=
  let s := { s with number_of_bits_sent := setAt s.number_of_bits_sent chan 0 }
  let s := (List.range 8).foldl (fun s _ => send_control chan 0xAA UNSCRAMBLED NO_NRZI s) s
  let s := send_control chan (~~~(0x7c : Int)) UNSCRAMBLED NO_NRZI s
  let s := send_control chan (~~~(0x56 : Int)) UNSCRAMBLED NO_NRZI s
  let frame_len := frame_len fcs_calc fbuf flen
  let s := send_control chan
    (~~~((flip (Int.land (frame_len >>> (8 : Nat)) 0xff).toNat : Nat) : Int)) UNSCRAMBLED NO_NRZI s
  let s := send_control chan
    (~~~((flip (Int.land frame_len 0xff).toNat : Nat) : Int)) UNSCRAMBLED NO_NRZI s
  (s.number_of_bits_sent chan, s)

/-! ## Bit sequences: definitions used to state the properties -/

/-- The `n` low bits of `x`, least significant first. -/
def lsbBits : Nat → Int → List Int
  | 0, _ => []
  | n + 1, x => x % 2 :: lsbBits n (x / 2)

/-- The 8 bits of a byte, least significant first. -/
def byteBits (x : Int) : List Int :=
  lsbBits 8 x

/-- The flag byte 0x7E, least significant bit first. -/
def flagBits : List Int :=
  [0, 1, 1, 1, 1, 1, 1, 0]

/-- The level `send_bit` leaves on the line, from the mode, the previous level and the bit. -/
def next_level (nrzi prev b : Int) : Int :=
  if nrzi ≠ 0 then b else if b = 0 then (if prev = 0 then 1 else 0) else prev

/-- The line levels of a sequence of bits sent one after the other from level `prev`. -/
def lineLevels (nrzi : Int) : Int → List Int → List Int
  | _, [] => []
  | prev, b :: bs => next_level nrzi prev b :: lineLevels nrzi (next_level nrzi prev b) bs

/-- The line level after a sequence of bits sent from level `prev`. -/
def finalLevel (nrzi : Int) : Int → List Int → Int
  | prev, [] => prev
  | prev, b :: bs => finalLevel nrzi (next_level nrzi prev b) bs

/-- A sequence of `send_bit` calls on one channel, in order. -/
def send_bits (chan : Nat) (scr nrzi : Int) (bs : List Int) (s : State) : State :=
  bs.foldl (fun s b => send_bit chan b scr nrzi s) s

/-- The store `stuff[chan] = v`. -/
def setStuff (chan : Nat) (v : Int) (s : State) : State :=
  { s with stuff := setAt s.stuff chan v }

/-- HDLC zero insertion as the specification words it, with run counter `run`:
a 1 increments the counter, and when it reaches 5 a 0 is inserted and the counter
is reset; a 0 resets the counter. -/
def hdlcStuff : Int → List Int → List Int
  | _, [] => []
  | run, b :: bs =>
    if b = 1 then
      if run + 1 = 5 then b :: 0 :: hdlcStuff 0 bs else b :: hdlcStuff (run + 1) bs
    else b :: hdlcStuff 0 bs

/-- The run counter after zero insertion over a bit sequence. -/
def runAfter : Int → List Int → Int
  | run, [] => run
  | run, b :: bs =>
    if b = 1 then
      if run + 1 = 5 then runAfter 0 bs else runAfter (run + 1) bs
    else runAfter 0 bs

/-- Bit destuffing: delete the 0 that follows five consecutive 1s; `run` is the
number of consecutive 1s just seen. -/
def destuff : Nat → List Int → List Int
  | _, [] => []
  | run, b :: bs =>
    if run = 5 ∧ b = 0 then destuff 0 bs
    else if b = 1 then b :: destuff (run + 1) bs
    else b :: destuff 0 bs

/-- NRZI decoding: a decoded bit is 1 iff the level equals the previous level. -/
def nrziDecode : Int → List Int → List Int
  | _, [] => []
  | prev, l :: ls => (if l = prev then 1 else 0) :: nrziDecode l ls

/-- The bytes the loop over `fbuf[0 .. flen-1]` loads, in order. -/
def payload (fbuf : List Nat) (flen : Int) : List Int :=
  (List.range flen.toNat).map (load fbuf)

/-- The bits of a byte sequence, each byte least significant bit first. -/
def bytesBits (xs : List Int) : List Int :=
  xs.flatMap byteBits

/-- The logical bits `send_bit` received between state `s` and the later state `t`. -/
def newBits (s t : State) : List Int :=
  (t.bit_log.drop s.bit_log.length).map Prod.snd

/-- The sink calls made between state `s` and the later state `t`. -/
def newEvents (s t : State) : List SinkEvent :=
  t.sink.drop s.sink.length

/-- The level carried by a sink call, if it is a bit. -/
def SinkEvent.level? : SinkEvent → Option Int
  | SinkEvent.put_bit _ l _ _ => some l
  | SinkEvent.flush _ => none

/-- The line levels forwarded to the sink between state `s` and the later state `t`. -/
def newLevels (s t : State) : List Int :=
  (newEvents s t).filterMap SinkEvent.level?

/-- The two bytes `hdlc_send_frame` sends for the checksum field, as the source computes them. -/
def fcsBytes (fcs bad_fcs : Int) : List Int :=
  if bad_fcs ≠ 0 then [Int.land (~~~fcs) 0xff, Int.land ((~~~fcs) >>> (8 : Nat)) 0xff]
  else [Int.land fcs 0xff, Int.land (fcs >>> (8 : Nat)) 0xff]

/-- The logical bits of a whole frame: four flags, the stuffed payload and
checksum field, two flags. -/
def frameBits (fcs_calc : List Nat → Int → Nat) (fbuf : List Nat) (flen bad_fcs : Int) :
    List Int :=
  flagBits ++ flagBits ++ flagBits ++ flagBits ++
    hdlcStuff 0 (bytesBits (payload fbuf flen ++ fcsBytes (fcs_value fcs_calc fbuf flen) bad_fcs)) ++
    flagBits ++ flagBits

/-- The store `number_of_bits_sent[chan] = 0` that opens every top-level operation. -/
def resetCount (chan : Nat) (s : State) : State :=
  { s with number_of_bits_sent := setAt s.number_of_bits_sent chan 0 }

/-- A run of `send_data` calls over a byte sequence. -/
def send_data_list (chan : Nat) (scr nrzi : Int) (xs : List Int) (s : State) : State :=
  xs.foldl (fun s x => send_data chan x scr nrzi s) s

/-- The bits between the 4 leading and the 2 trailing flag bytes of a frame. -/
def frameField (bits : List Int) : List Int :=
  (bits.drop 32).take (bits.length - 48)

/-- Every element is a bit, 0 or 1. -/
def AllBits (bits : List Int) : Prop :=
  ∀ b ∈ bits, b = 0 ∨ b = 1

/-- Run-length check: with `k` consecutive 1s just before, the sequence never
continues a run of five 1s with anything but a 0, and does not end on such a run. -/
def okRun : Nat → List Int → Prop
  | k, [] => k < 5
  | k, b :: bs => if b = 1 then k < 5 ∧ okRun (k + 1) bs else (5 ≤ k → b = 0) ∧ okRun 0 bs

/-- Every five consecutive 1s of the sequence are immediately followed by a 0
that is part of the sequence. -/
def FiveOnesThenZero (bits : List Int) : Prop :=
  ∀ i : Nat, (∀ k : Nat, k < 5 → bits[i + k]? = some 1) → bits[i + 5]? = some 0

/-- The sequence has no six consecutive 1s. -/
def NoSixOnes (bits : List Int) : Prop :=
  ∀ i : Nat, ¬ ∀ k : Nat, k < 6 → bits[i + k]? = some 1

/-- The logical bits of a header: eight preamble bytes 0xAA, the two sync
bytes and the two length bytes, as the source computes them. -/
def headerBits (fcs_calc : List Nat → Int → Nat) (fbuf : List Nat) (flen : Int) : List Int :=
  bytesBits (List.replicate 8 0xAA) ++ byteBits (~~~(0x7c : Int)) ++ byteBits (~~~(0x56 : Int)) ++
    byteBits (~~~((flip (Int.land (frame_len fcs_calc fbuf flen >>> (8 : Nat)) 0xff).toNat : Nat) : Int)) ++
    byteBits (~~~((flip (Int.land (frame_len fcs_calc fbuf flen) 0xff).toNat : Nat) : Int))

/-- The sink call `audio_flush (adev)` appended when `finish` is non-zero. -/
def flushIf (finish adev : Int) (s : State) : State :=
  if finish ≠ 0 then { s with sink := s.sink ++ [SinkEvent.flush adev] } else s

/-- The frame length as the specification words it: the exact quotient
`(totalBits + 7 + 16 + 24) / 8`, rounded up. -/
def frameLenCeilSpec (totalBits : Int) : Int :=
  ⌈((totalBits + 7 + 16 + 24 : Int) : ℚ) / 8⌉

/-- The 80 logical bits of the preamble and the sync bytes of a header: eight
times 0xAA, then 0x83 and 0xA9, each least significant bit first. -/
def preambleSyncBits : List Int :=
  [0, 1, 0, 1, 0, 1, 0, 1, 0, 1, 0, 1, 0, 1, 0, 1, 0, 1, 0, 1, 0, 1, 0, 1, 0, 1, 0, 1, 0, 1, 0, 1,
   0, 1, 0, 1, 0, 1, 0, 1, 0, 1, 0, 1, 0, 1, 0, 1, 0, 1, 0, 1, 0, 1, 0, 1, 0, 1, 0, 1, 0, 1, 0, 1,
   1, 1, 0, 0, 0, 0, 0, 1, 1, 0, 0, 1, 0, 1, 0, 1]

/-- The high byte `(frame_len >> 8) & 0xff` that `hdlc_send_header` passes to `flip`. -/
def lenHigh (fcs_calc : List Nat → Int → Nat) (fbuf : List Nat) (flen : Int) : Nat :=
  (Int.land (frame_len fcs_calc fbuf flen >>> (8 : Nat)) 0xff).toNat

/-- The low byte `frame_len & 0xff` that `hdlc_send_header` passes to `flip`. -/
def lenLow (fcs_calc : List Nat → Int → Nat) (fbuf : List Nat) (flen : Int) : Nat :=
  (Int.land (frame_len fcs_calc fbuf flen) 0xff).toNat

/-- The number of `send_bit` calls each `send_data` call of a byte sequence
makes, read off the history of the run. -/
def stuffedByteCounts (chan : Nat) (scr nrzi : Int) : List Int → State → List Nat
  | [], _ => []
  | x :: xs, s =>
    (newBits s (send_data chan x scr nrzi s)).length ::
      stuffedByteCounts chan scr nrzi xs (send_data chan x scr nrzi s)

/-- The state of `hdlc_send_frame` after the counter reset and the four start flags. -/
def afterStartFlags (chan : Nat) (s : State) : State :=
  send_control chan 0x7e SCRAMBLED NRZI (send_control chan 0x7e SCRAMBLED NRZI
    (send_control chan 0x7e SCRAMBLED NRZI (send_control chan 0x7e SCRAMBLED NRZI
      (resetCount chan s))))

/-- The number of bits each payload and checksum byte of a frame occupies. -/
def frameByteCounts (fcs_calc : List Nat → Int → Nat) (chan : Nat) (fbuf : List Nat)
    (flen bad_fcs : Int) (s : State) : List Nat :=
  stuffedByteCounts chan SCRAMBLED NRZI
    (payload fbuf flen ++ fcsBytes (fcs_value fcs_calc fbuf flen) bad_fcs) (afterStartFlags chan s)

/-- The stuffed length of each byte of a sequence, the run counter carried from byte to byte. -/
def byteLens : Int → List Int → List Nat
  | _, [] => []
  | r, x :: xs => (hdlcStuff r (byteBits x)).length :: byteLens (runAfter r (byteBits x)) xs

/-- The sum `calculate_len` forms: `calc_data` of every byte. -/
def calcSum (xs : List Int) : Int :=
  (xs.map calc_data).sum

/-- With run counter `r` on entry, a 0 is inserted inside the leading run of 1s of the bits. -/
def leadInsert : Int → List Int → Bool
  | _, [] => false
  | r, b :: bs => if b = 1 then (if r + 1 = 5 then true else leadInsert (r + 1) bs) else false

/-- Some byte is entered with a run of 1s pending from the bytes before it
(counter above 0) and a 0 is inserted inside its leading run of 1s: an
insertion caused by a run that crosses a byte boundary. -/
def crossInsert : Int → List Int → Bool
  | _, [] => false
  | r, x :: xs =>
    (decide (0 < r) && leadInsert r (byteBits x)) || crossInsert (runAfter r (byteBits x)) xs

/-- The states the three top-level operations can reach from the all-zero
initial storage. -/
inductive Reachable (fcs_calc : List Nat → Int → Nat) (ACHAN2ADEV : Nat → Int) : State → Prop where
  | init : Reachable fcs_calc ACHAN2ADEV State.init
  | frame (chan : Nat) (fbuf : List Nat) (flen bad_fcs : Int) (s : State) :
      Reachable fcs_calc ACHAN2ADEV s →
      Reachable fcs_calc ACHAN2ADEV (hdlc_send_frame fcs_calc chan fbuf flen bad_fcs s).2
  | flags (chan : Nat) (nflags finish : Int) (s : State) :
      Reachable fcs_calc ACHAN2ADEV s →
      Reachable fcs_calc ACHAN2ADEV (hdlc_send_flags ACHAN2ADEV chan nflags finish s).2
  | header (chan : Nat) (fbuf : List Nat) (flen : Int) (s : State) :
      Reachable fcs_calc ACHAN2ADEV s →
      Reachable fcs_calc ACHAN2ADEV (hdlc_send_header fcs_calc chan fbuf flen s).2

/-! ## Basic facts -/

theorem State.ext_fields {s t : State} (h1 : s.number_of_bits_sent = t.number_of_bits_sent)
    (h2 : s.stuff = t.stuff) (h3 : s.output = t.output) (h4 : s.sink = t.sink)
    (h5 : s.bit_log = t.bit_log) : s = t := by
  cases s; cases t; simp_all

theorem setAt_same (a : Nat → Int) (i : Nat) (v : Int) : setAt a i v i = v := by
  simp [setAt]

theorem setAt_other (a : Nat → Int) {i j : Nat} (v : Int) (h : j ≠ i) : setAt a i v j = a j := by
  simp [setAt, h]

theorem setAt_setAt (a : Nat → Int) (i : Nat) (v w : Int) :
    setAt (setAt a i v) i w = setAt a i w := by
  funext j; by_cases h : j = i <;> simp [setAt, h]

theorem setAt_self (a : Nat → Int) (i : Nat) : setAt a i (a i) = a := by
  funext j; by_cases h : j = i <;> simp [setAt, h]

theorem ldiff_mask (k n : Nat) : Nat.ldiff (2 ^ k - 1) n = 2 ^ k - (n % 2 ^ k + 1) := by
  apply Nat.eq_of_testBit_eq
  intro i
  have h : n % 2 ^ k < 2 ^ k := Nat.mod_lt _ (Nat.two_pow_pos k)
  rw [Nat.testBit_ldiff, Nat.testBit_two_pow_sub_one, Nat.testBit_two_pow_sub_succ h,
    Nat.testBit_mod_two_pow]
  cases decide (i < k) <;> simp

theorem land_mask (x : Int) (k : Nat) :
    Int.land x ((2 ^ k - 1 : Nat) : Int) = x % ((2 ^ k : Nat) : Int) := by
  cases x with
  | ofNat n =>
    show ((n &&& (2 ^ k - 1) : Nat) : Int) = _
    rw [Nat.and_pow_two_sub_one_eq_mod]
    simp
  | negSucc n =>
    show ((Nat.ldiff (2 ^ k - 1) n : Nat) : Int) = _
    rw [ldiff_mask]
    have h : n % 2 ^ k < 2 ^ k := Nat.mod_lt _ (Nat.two_pow_pos k)
    have hp : (0 : Int) < ((2 ^ k : Nat) : Int) := by positivity
    rw [Int.negSucc_emod _ hp]
    rw [Int.ofNat_sub (by omega)]
    push_cast
    omega

theorem land_one (x : Int) : Int.land x 1 = x % 2 :=
  land_mask x 1

theorem land_ff (x : Int) : Int.land x 0xff = x % 256 :=
  land_mask x 8

theorem shr_eq_div (x : Int) (k : Nat) : x >>> k = x / 2 ^ k := by
  rw [Int.shiftRight_eq_div_pow]; simp

theorem shr_one (x : Int) : x >>> (1 : Nat) = x / 2 := by
  rw [shr_eq_div]; simp

theorem not_eq_neg (x : Int) : ~~~x = -x - 1 := by
  cases x with
  | ofNat n => show Int.negSucc n = -(n : Int) - 1; rw [Int.negSucc_eq]; omega
  | negSucc n => show Int.ofNat n = _; rw [Int.negSucc_eq]; simp

/-! ## The bit emitter -/

theorem send_bit_eq (chan : Nat) (b scr nrzi : Int) (s : State) :
    send_bit chan b scr nrzi s =
      { number_of_bits_sent := setAt s.number_of_bits_sent chan (s.number_of_bits_sent chan + 1)
        stuff := s.stuff
        output := setAt s.output chan (next_level nrzi (s.output chan) b)
        sink := s.sink ++ [SinkEvent.put_bit chan (next_level nrzi (s.output chan) b) scr nrzi]
        bit_log := s.bit_log ++ [(chan, b)] } := by
  unfold send_bit next_level
  by_cases h1 : nrzi = 0
  · by_cases h2 : b = 0
    · simp [h1, h2, setAt_same]
    · simp [h1, h2, setAt_self]
  · simp [h1, setAt_same]

theorem send_bits_nil (chan : Nat) (scr nrzi : Int) (s : State) :
    send_bits chan scr nrzi [] s = s := rfl

theorem send_bits_cons (chan : Nat) (scr nrzi b : Int) (bs : List Int) (s : State) :
    send_bits chan scr nrzi (b :: bs) s = send_bits chan scr nrzi bs (send_bit chan b scr nrzi s) :=
  rfl

theorem send_bits_append (chan : Nat) (scr nrzi : Int) (as bs : List Int) (s : State) :
    send_bits chan scr nrzi (as ++ bs) s = send_bits chan scr nrzi bs (send_bits chan scr nrzi as s) := by
  simp [send_bits, List.foldl_append]

theorem send_bits_eq (chan : Nat) (scr nrzi : Int) (bs : List Int) (s : State) :
    send_bits chan scr nrzi bs s =
      { number_of_bits_sent :=
          setAt s.number_of_bits_sent chan (s.number_of_bits_sent chan + bs.length)
        stuff := s.stuff
        output := setAt s.output chan (finalLevel nrzi (s.output chan) bs)
        sink := s.sink ++
          (lineLevels nrzi (s.output chan) bs).map (fun l => SinkEvent.put_bit chan l scr nrzi)
        bit_log := s.bit_log ++ bs.map (fun b => (chan, b)) } := by
  induction bs generalizing s with
  | nil =>
    apply State.ext_fields <;> simp [send_bits_nil, finalLevel, lineLevels, setAt_self]
  | cons b bs ih =>
    rw [send_bits_cons, ih, send_bit_eq]
    apply State.ext_fields
    · have h : s.number_of_bits_sent chan + 1 + (bs.length : Int) =
          s.number_of_bits_sent chan + ((bs.length + 1 : Nat) : Int) := by
        push_cast; ring
      simp only [setAt_same, setAt_setAt, List.length_cons, h]
    · rfl
    · simp only [setAt_same, setAt_setAt, finalLevel]
    · simp [setAt_same, lineLevels]
    · simp

theorem send_bits_setStuff (chan : Nat) (scr nrzi v : Int) (bs : List Int) (s : State) :
    send_bits chan scr nrzi bs (setStuff chan v s) = setStuff chan v (send_bits chan scr nrzi bs s) := by
  rw [send_bits_eq, send_bits_eq]
  rfl

theorem setStuff_setStuff (chan : Nat) (v w : Int) (s : State) :
    setStuff chan w (setStuff chan v s) = setStuff chan w s := by
  simp [setStuff, setAt_setAt]

theorem setStuff_self (chan : Nat) (s : State) : setStuff chan (s.stuff chan) s = s := by
  simp [setStuff, setAt_self]

/-! ## Raw and stuffed bytes -/

theorem send_control_loop_eq (n chan : Nat) (x scr nrzi : Int) (s : State) :
    send_control_loop n chan x scr nrzi s = send_bits chan scr nrzi (lsbBits n x) s := by
  induction n generalizing x s with
  | zero => rfl
  | succ n ih =>
    rw [send_control_loop, ih, lsbBits, send_bits_cons, land_one, shr_one]

theorem send_control_eq (chan : Nat) (x scr nrzi : Int) (s : State) :
    send_control chan x scr nrzi s = setStuff chan 0 (send_bits chan scr nrzi (byteBits x) s) := by
  unfold send_control
  rw [send_control_loop_eq]
  rfl

theorem lsbBits_bit (n : Nat) (x b : Int) (h : b ∈ lsbBits n x) : b = 0 ∨ b = 1 := by
  induction n generalizing x with
  | zero => simp [lsbBits] at h
  | succ n ih =>
    rw [lsbBits, List.mem_cons] at h
    rcases h with h | h
    · omega
    · exact ih _ h

theorem send_data_step_eq (chan : Nat) (x scr nrzi : Int) (s : State) :
    send_data_step chan x scr nrzi s =
      setStuff chan (runAfter (s.stuff chan) [x % 2])
        (send_bits chan scr nrzi (hdlcStuff (s.stuff chan) [x % 2]) s) := by
  unfold send_data_step
  rw [land_one]
  rcases Int.emod_two_eq_zero_or_one x with h | h
  · simp [h, hdlcStuff, runAfter, send_bits_cons, send_bits_nil, setStuff, send_bit_eq]
  · by_cases h5 : s.stuff chan + 1 = 5
    · simp [h, h5, hdlcStuff, runAfter, send_bits_cons, send_bits_nil, setStuff, send_bit_eq,
        setAt_same, setAt_setAt]
    · simp [h, h5, hdlcStuff, runAfter, send_bits_cons, send_bits_nil, setStuff, send_bit_eq,
        setAt_same]

theorem hdlcStuff_append (r : Int) (as bs : List Int) :
    hdlcStuff r (as ++ bs) = hdlcStuff r as ++ hdlcStuff (runAfter r as) bs := by
  induction as generalizing r with
  | nil => rfl
  | cons a as ih =>
    simp only [List.cons_append, hdlcStuff, runAfter]
    split_ifs <;> simp [ih]

theorem runAfter_append (r : Int) (as bs : List Int) :
    runAfter r (as ++ bs) = runAfter (runAfter r as) bs := by
  induction as generalizing r with
  | nil => rfl
  | cons a as ih =>
    simp only [List.cons_append, runAfter]
    split_ifs <;> simp [ih]

theorem send_bits_stuff (chan : Nat) (scr nrzi : Int) (bs : List Int) (s : State) :
    (send_bits chan scr nrzi bs s).stuff = s.stuff := by
  rw [send_bits_eq]

theorem send_data_loop_eq (n chan : Nat) (x scr nrzi : Int) (s : State) :
    send_data_loop n chan x scr nrzi s =
      setStuff chan (runAfter (s.stuff chan) (lsbBits n x))
        (send_bits chan scr nrzi (hdlcStuff (s.stuff chan) (lsbBits n x)) s) := by
  induction n generalizing x s with
  | zero => simp [send_data_loop, lsbBits, runAfter, hdlcStuff, send_bits_nil, setStuff_self]
  | succ n ih =>
    rw [send_data_loop, ih, send_data_step_eq, shr_one]
    have hl : lsbBits (n + 1) x = [x % 2] ++ lsbBits n (x / 2) := rfl
    rw [hl, hdlcStuff_append, runAfter_append, send_bits_append, send_bits_setStuff,
      setStuff_setStuff]
    simp [setStuff, send_bits_stuff, setAt_same]

theorem send_data_eq (chan : Nat) (x scr nrzi : Int) (s : State) :
    send_data chan x scr nrzi s =
      setStuff chan (runAfter (s.stuff chan) (byteBits x))
        (send_bits chan scr nrzi (hdlcStuff (s.stuff chan) (byteBits x)) s) :=
  send_data_loop_eq 8 chan x scr nrzi s

theorem send_data_list_eq (chan : Nat) (scr nrzi : Int) (xs : List Int) (s : State) :
    send_data_list chan scr nrzi xs s =
      setStuff chan (runAfter (s.stuff chan) (bytesBits xs))
        (send_bits chan scr nrzi (hdlcStuff (s.stuff chan) (bytesBits xs)) s) := by
  induction xs generalizing s with
  | nil => simp [send_data_list, bytesBits, runAfter, hdlcStuff, send_bits_nil, setStuff_self]
  | cons x xs ih =>
    have hc : send_data_list chan scr nrzi (x :: xs) s =
        send_data_list chan scr nrzi xs (send_data chan x scr nrzi s) := rfl
    have hb : bytesBits (x :: xs) = byteBits x ++ bytesBits xs := by simp [bytesBits]
    rw [hc, ih, send_data_eq, hb, hdlcStuff_append, runAfter_append, send_bits_append,
      send_bits_setStuff, setStuff_setStuff]
    simp [setStuff, send_bits_stuff, setAt_same]

theorem byteBits_flag : byteBits 0x7e = flagBits := by
  decide

/-! ## Whole operations -/

theorem frame_loop_eq (chan : Nat) (fbuf : List Nat) (flen : Int) (s : State) :
    (List.range flen.toNat).foldl (fun s j => send_data chan (load fbuf j) SCRAMBLED NRZI s) s =
      send_data_list chan SCRAMBLED NRZI (payload fbuf flen) s := by
  simp [send_data_list, payload, List.foldl_map]

theorem fcs_tail_eq (chan : Nat) (fcs bad_fcs : Int) (s : State) :
    (if bad_fcs ≠ 0 then
        send_data chan (Int.land ((~~~fcs) >>> (8 : Nat)) 0xff) SCRAMBLED NRZI
          (send_data chan (Int.land (~~~fcs) 0xff) SCRAMBLED NRZI s)
      else
        send_data chan (Int.land (fcs >>> (8 : Nat)) 0xff) SCRAMBLED NRZI
          (send_data chan (Int.land fcs 0xff) SCRAMBLED NRZI s)) =
      send_data_list chan SCRAMBLED NRZI (fcsBytes fcs bad_fcs) s := by
  unfold fcsBytes
  split_ifs <;> rfl

theorem send_data_list_append (chan : Nat) (scr nrzi : Int) (xs ys : List Int) (s : State) :
    send_data_list chan scr nrzi (xs ++ ys) s =
      send_data_list chan scr nrzi ys (send_data_list chan scr nrzi xs s) := by
  simp [send_data_list, List.foldl_append]

theorem setStuff_stuff (chan : Nat) (v : Int) (s : State) : (setStuff chan v s).stuff chan = v := by
  simp [setStuff, setAt_same]

theorem hdlc_send_frame_eq (fcs_calc : List Nat → Int → Nat) (chan : Nat) (fbuf : List Nat)
    (flen bad_fcs : Int) (s : State) :
    (hdlc_send_frame fcs_calc chan fbuf flen bad_fcs s).2 =
      setStuff chan 0
        (send_bits chan SCRAMBLED NRZI (frameBits fcs_calc fbuf flen bad_fcs) (resetCount chan s)) := by
  unfold hdlc_send_frame
  simp only []
  rw [fcs_tail_eq, frame_loop_eq, ← send_data_list_append]
  simp only [send_control_eq, byteBits_flag, send_data_list_eq, send_bits_setStuff,
    setStuff_setStuff, setStuff_stuff, frameBits, send_bits_append]
  rfl

theorem hdlc_send_frame_ret (fcs_calc : List Nat → Int → Nat) (chan : Nat) (fbuf : List Nat)
    (flen bad_fcs : Int) (s : State) :
    (hdlc_send_frame fcs_calc chan fbuf flen bad_fcs s).1 =
      (hdlc_send_frame fcs_calc chan fbuf flen bad_fcs s).2.number_of_bits_sent chan :=
  rfl

/-! ## Effect of a top-level operation that sends the bits `bits` on channel `chan` -/

theorem effect_count (chan : Nat) (scr nrzi v : Int) (bits : List Int) (s : State) :
    (setStuff chan v (send_bits chan scr nrzi bits (resetCount chan s))).number_of_bits_sent chan =
      bits.length := by
  rw [send_bits_eq]
  simp [setStuff, resetCount, setAt_same]

theorem effect_newBits (chan : Nat) (scr nrzi v : Int) (bits : List Int) (s : State) :
    newBits s (setStuff chan v (send_bits chan scr nrzi bits (resetCount chan s))) = bits := by
  rw [send_bits_eq]
  simp [newBits, setStuff, resetCount, Function.comp_def]

theorem effect_newEvents (chan : Nat) (scr nrzi v : Int) (bits : List Int) (s : State) :
    newEvents s (setStuff chan v (send_bits chan scr nrzi bits (resetCount chan s))) =
      (lineLevels nrzi (s.output chan) bits).map (fun l => SinkEvent.put_bit chan l scr nrzi) := by
  rw [send_bits_eq]
  simp [newEvents, setStuff, resetCount]

theorem effect_newLevels (chan : Nat) (scr nrzi v : Int) (bits : List Int) (s : State) :
    newLevels s (setStuff chan v (send_bits chan scr nrzi bits (resetCount chan s))) =
      lineLevels nrzi (s.output chan) bits := by
  rw [newLevels, effect_newEvents, List.filterMap_map]
  simp [Function.comp_def, SinkEvent.level?]

theorem effect_stuff (chan : Nat) (scr nrzi v : Int) (bits : List Int) (s : State) :
    (setStuff chan v (send_bits chan scr nrzi bits (resetCount chan s))).stuff = setAt s.stuff chan v := by
  rw [send_bits_eq]
  simp [setStuff, resetCount]

theorem effect_output (chan : Nat) (scr nrzi v : Int) (bits : List Int) (s : State) :
    (setStuff chan v (send_bits chan scr nrzi bits (resetCount chan s))).output =
      setAt s.output chan (finalLevel nrzi (s.output chan) bits) := by
  rw [send_bits_eq]
  simp [setStuff, resetCount]

theorem effect_count_other (chan : Nat) (scr nrzi v : Int) (bits : List Int) (s : State)
    {c : Nat} (h : c ≠ chan) :
    (setStuff chan v (send_bits chan scr nrzi bits (resetCount chan s))).number_of_bits_sent c =
      s.number_of_bits_sent c := by
  rw [send_bits_eq]
  simp [setStuff, resetCount, setAt_other, h]

/-! ## Bits, stuffing and line coding -/

theorem allBits_append {as bs : List Int} (ha : AllBits as) (hb : AllBits bs) :
    AllBits (as ++ bs) := by
  intro b hmem
  rcases List.mem_append.1 hmem with h | h
  · exact ha b h
  · exact hb b h

theorem allBits_lsbBits (n : Nat) (x : Int) : AllBits (lsbBits n x) :=
  fun b h => lsbBits_bit n x b h

theorem allBits_bytesBits (xs : List Int) : AllBits (bytesBits xs) := by
  intro b h
  simp only [bytesBits, List.mem_flatMap] at h
  obtain ⟨x, -, hx⟩ := h
  exact lsbBits_bit 8 x b hx

theorem allBits_flagBits : AllBits flagBits := by
  intro b h
  simp [flagBits] at h
  omega

theorem allBits_hdlcStuff (r : Int) (bits : List Int) (h : AllBits bits) :
    AllBits (hdlcStuff r bits) := by
  induction bits generalizing r with
  | nil => intro b hb; simp [hdlcStuff] at hb
  | cons a as ih =>
    have ha : a = 0 ∨ a = 1 := h a (List.mem_cons_self _ _)
    have has : AllBits as := fun b hb => h b (List.mem_cons_of_mem _ hb)
    intro b hb
    simp only [hdlcStuff] at hb
    split_ifs at hb
    · simp only [List.mem_cons] at hb
      rcases hb with hb | hb | hb
      · exact hb ▸ ha
      · exact Or.inl hb
      · exact ih 0 has b hb
    · simp only [List.mem_cons] at hb
      rcases hb with hb | hb
      · exact hb ▸ ha
      · exact ih _ has b hb
    · simp only [List.mem_cons] at hb
      rcases hb with hb | hb
      · exact hb ▸ ha
      · exact ih 0 has b hb

theorem allBits_frameBits (fcs_calc : List Nat → Int → Nat) (fbuf : List Nat) (flen bad_fcs : Int) :
    AllBits (frameBits fcs_calc fbuf flen bad_fcs) := by
  unfold frameBits
  exact allBits_append (allBits_append (allBits_append (allBits_append (allBits_append
    (allBits_append allBits_flagBits allBits_flagBits) allBits_flagBits) allBits_flagBits)
    (allBits_hdlcStuff _ _ (allBits_bytesBits _))) allBits_flagBits) allBits_flagBits

theorem nrziDecode_lineLevels (prev : Int) (bits : List Int) (h : AllBits bits) :
    nrziDecode prev (lineLevels NRZI prev bits) = bits := by
  induction bits generalizing prev with
  | nil => rfl
  | cons a as ih =>
    have ha : a = 0 ∨ a = 1 := h a (List.mem_cons_self _ _)
    have has : AllBits as := fun b hb => h b (List.mem_cons_of_mem _ hb)
    simp only [lineLevels, nrziDecode, ih _ has]
    rcases ha with ha | ha
    · by_cases hp : prev = 0 <;> simp [ha, next_level, NRZI, hp]
      exact fun h0 => hp h0.symm
    · simp [ha, next_level, NRZI]

theorem destuff_hdlcStuff (r : Nat) (hr : r ≤ 4) (bits : List Int) (h : AllBits bits) :
    destuff r (hdlcStuff (r : Int) bits) = bits := by
  induction bits generalizing r with
  | nil => rfl
  | cons a as ih =>
    have ha : a = 0 ∨ a = 1 := h a (List.mem_cons_self _ _)
    have has : AllBits as := fun b hb => h b (List.mem_cons_of_mem _ hb)
    rcases ha with ha | ha
    · subst ha
      have h0 := ih 0 (by omega) has
      simp only [Nat.cast_zero] at h0
      have hr5 : r ≠ 5 := by omega
      simp [hdlcStuff, destuff, h0, hr5]
    · subst ha
      by_cases h5 : (r : Int) + 1 = 5
      · have h0 := ih 0 (by omega) has
        simp only [Nat.cast_zero] at h0
        have hr4 : r = 4 := by omega
        subst hr4
        simp [hdlcStuff, destuff, h0]
      · have h1 := ih (r + 1) (by omega) has
        simp only [Nat.cast_add, Nat.cast_one] at h1
        simp [hdlcStuff, destuff, h5, h1]

theorem length_byteBits (x : Int) : (byteBits x).length = 8 := rfl

theorem frameField_frameBits (fcs_calc : List Nat → Int → Nat) (fbuf : List Nat)
    (flen bad_fcs : Int) :
    frameField (frameBits fcs_calc fbuf flen bad_fcs) =
      hdlcStuff 0
        (bytesBits (payload fbuf flen ++ fcsBytes (fcs_value fcs_calc fbuf flen) bad_fcs)) := by
  simp only [frameField, frameBits, List.length_append, List.append_assoc]
  have h8 : flagBits.length = 8 := rfl
  rw [h8]
  have hd : ∀ t : List Int, (flagBits ++ (flagBits ++ (flagBits ++ (flagBits ++ t)))).drop 32 = t :=
    fun t => rfl
  rw [hd]
  have hn : ∀ n : Nat, 8 + (8 + (8 + (8 + (n + (8 + 8))))) - 48 = n := fun n => by omega
  rw [hn, List.take_left']
  rfl

theorem div_two_div_pow (x : Int) (m : Nat) : x / 2 / 2 ^ m = x / 2 ^ (m + 1) := by
  have h := Int.shiftRight_add x 1 m
  rw [shr_eq_div, shr_eq_div, shr_eq_div, Nat.add_comm] at h
  simpa using h.symm

theorem lsbBits_add (m n : Nat) (x : Int) :
    lsbBits (m + n) x = lsbBits m x ++ lsbBits n (x / 2 ^ m) := by
  induction m generalizing x with
  | zero => simp [lsbBits]
  | succ m ih =>
    have e : m + 1 + n = (m + n) + 1 := by omega
    rw [e, lsbBits, lsbBits, ih, List.cons_append, div_two_div_pow]

theorem lsbBits_mod (n : Nat) (x : Int) : lsbBits n (x % 2 ^ n) = lsbBits n x := by
  induction n generalizing x with
  | zero => rfl
  | succ n ih =>
    have h1 : x % 2 ^ (n + 1) % 2 = x % 2 :=
      Int.emod_emod_of_dvd x (Dvd.intro_left (2 ^ n) rfl)
    have h2 : x % 2 ^ (n + 1) / 2 = x / 2 % 2 ^ n := by
      have hq : x / 2 / 2 ^ n = x / (2 * 2 ^ n) := by rw [div_two_div_pow, pow_succ']
      rw [pow_succ', Int.emod_def x (2 * 2 ^ n), Int.emod_def (x / 2) (2 ^ n), hq, mul_assoc]
      generalize 2 ^ n * (x / (2 * 2 ^ n)) = t
      omega
    rw [lsbBits, lsbBits, h1, h2, ih]

theorem lsbBits_neg (n : Nat) (x : Int) :
    lsbBits n (-x - 1) = (lsbBits n x).map (fun b => 1 - b) := by
  induction n generalizing x with
  | zero => rfl
  | succ n ih =>
    have h1 : (-x - 1) % 2 = 1 - x % 2 := by omega
    have h2 : (-x - 1) / 2 = -(x / 2) - 1 := by omega
    rw [lsbBits, lsbBits, h1, h2, ih, List.map_cons]

theorem byteBits_mod (x : Int) : byteBits (x % 256) = byteBits x :=
  lsbBits_mod 8 x

theorem lsbBits_sixteen (x : Int) : lsbBits 16 x = byteBits x ++ byteBits (x / 256) :=
  lsbBits_add 8 8 x

theorem lsbBits_compl (x : Int) :
    lsbBits 16 (65535 - x) = (lsbBits 16 x).map (fun b => 1 - b) := by
  have h : (65535 - x) % 2 ^ 16 = (-x - 1) % 2 ^ 16 := by norm_num; omega
  rw [← lsbBits_mod 16 (65535 - x), h, lsbBits_mod, lsbBits_neg]

theorem bytesBits_append (xs ys : List Int) : bytesBits (xs ++ ys) = bytesBits xs ++ bytesBits ys := by
  simp [bytesBits]

theorem bytesBits_pair (a b : Int) : bytesBits [a, b] = byteBits a ++ byteBits b := by
  simp [bytesBits]

theorem fcsBytes_good (fcs : Int) :
    bytesBits (fcsBytes fcs 0) = lsbBits 16 fcs := by
  have h : fcs / 2 ^ 8 = fcs / 256 := by norm_num
  have e : fcsBytes fcs 0 = [Int.land fcs 0xff, Int.land (fcs >>> (8 : Nat)) 0xff] := rfl
  rw [e, bytesBits_pair, land_ff, land_ff, shr_eq_div, byteBits_mod, byteBits_mod, h,
    lsbBits_sixteen]

theorem fcsBytes_bad (fcs bad_fcs : Int) (hb : bad_fcs ≠ 0) :
    bytesBits (fcsBytes fcs bad_fcs) = lsbBits 16 (65535 - fcs) := by
  have h : (~~~fcs) / 2 ^ 8 = (~~~fcs) / 256 := by norm_num
  have e : fcsBytes fcs bad_fcs =
      [Int.land (~~~fcs) 0xff, Int.land ((~~~fcs) >>> (8 : Nat)) 0xff] := by
    simp [fcsBytes, hb]
  have hm : (65535 - fcs) % 2 ^ 16 = (-fcs - 1) % 2 ^ 16 := by norm_num; omega
  rw [e, bytesBits_pair, land_ff, land_ff, shr_eq_div, byteBits_mod, byteBits_mod, h,
    ← lsbBits_sixteen, not_eq_neg, ← lsbBits_mod 16 (65535 - fcs), hm, lsbBits_mod]

theorem lsbBits_sixteen_bytes (x : Int) : lsbBits 16 x = bytesBits [x % 256, x / 256] := by
  rw [bytesBits_pair, byteBits_mod, lsbBits_sixteen]

theorem frame_newBits (fcs_calc : List Nat → Int → Nat) (chan : Nat) (fbuf : List Nat)
    (flen bad_fcs : Int) (s : State) :
    newBits s (hdlc_send_frame fcs_calc chan fbuf flen bad_fcs s).2 =
      frameBits fcs_calc fbuf flen bad_fcs := by
  rw [hdlc_send_frame_eq, effect_newBits]

theorem frame_newLevels (fcs_calc : List Nat → Int → Nat) (chan : Nat) (fbuf : List Nat)
    (flen bad_fcs : Int) (s : State) :
    newLevels s (hdlc_send_frame fcs_calc chan fbuf flen bad_fcs s).2 =
      lineLevels NRZI (s.output chan) (frameBits fcs_calc fbuf flen bad_fcs) := by
  rw [hdlc_send_frame_eq, effect_newLevels]

theorem frame_ret (fcs_calc : List Nat → Int → Nat) (chan : Nat) (fbuf : List Nat)
    (flen bad_fcs : Int) (s : State) :
    (hdlc_send_frame fcs_calc chan fbuf flen bad_fcs s).1 =
      ((frameBits fcs_calc fbuf flen bad_fcs).length : Int) := by
  rw [hdlc_send_frame_ret, hdlc_send_frame_eq, effect_count]

theorem frameBits_good (fcs_calc : List Nat → Int → Nat) (fbuf : List Nat) (flen : Int) :
    frameBits fcs_calc fbuf flen 0 =
      flagBits ++ flagBits ++ flagBits ++ flagBits ++
        hdlcStuff 0 (bytesBits (payload fbuf flen ++
          [fcs_value fcs_calc fbuf flen % 256, fcs_value fcs_calc fbuf flen / 256])) ++
        flagBits ++ flagBits := by
  rw [frameBits, bytesBits_append, fcsBytes_good, lsbBits_sixteen_bytes, ← bytesBits_append]

theorem okRun_hdlcStuff (k : Nat) (r : Int) (hk : (k : Int) ≤ r) (hr : r ≤ 4) (bits : List Int)
    (h : AllBits bits) : okRun k (hdlcStuff r bits) := by
  induction bits generalizing k r with
  | nil => simp only [hdlcStuff, okRun]; omega
  | cons a as ih =>
    have ha : a = 0 ∨ a = 1 := h a (List.mem_cons_self _ _)
    have has : AllBits as := fun b hb => h b (List.mem_cons_of_mem _ hb)
    rcases ha with ha | ha
    · subst ha
      simp only [hdlcStuff, okRun]
      simpa using ih 0 0 (by simp) (by omega) has
    · subst ha
      by_cases h5 : r + 1 = 5
      · simp only [hdlcStuff, okRun, h5, if_true]
        refine ⟨by omega, ?_⟩
        simpa using ih 0 0 (by simp) (by omega) has
      · simp only [hdlcStuff, okRun, h5, if_true, if_false]
        exact ⟨by omega, ih (k + 1) (r + 1) (by push_cast; omega) (by omega) has⟩

theorem okRun_ones (m k : Nat) (bits : List Int) (hok : okRun k bits)
    (hones : ∀ j : Nat, j < m → bits[j]? = some 1) (h5 : 5 ≤ k + m) : bits[m]? = some 0 := by
  induction m generalizing k bits with
  | zero =>
    cases bits with
    | nil => simp only [okRun] at hok; omega
    | cons b bs =>
      simp only [okRun] at hok
      split_ifs at hok with hb
      · omega
      · simp [hok.1 (by omega)]
  | succ m ih =>
    cases bits with
    | nil => simpa using hones 0 (by omega)
    | cons b bs =>
      have hb : b = 1 := by simpa using hones 0 (by omega)
      simp only [okRun, hb, if_true] at hok
      have := ih (k + 1) bs hok.2 (fun j hj => by simpa using hones (j + 1) (by omega)) (by omega)
      simpa using this

theorem okRun_tail (k : Nat) (b : Int) (bs : List Int) (hok : okRun k (b :: bs)) :
    ∃ k2, okRun k2 bs := by
  simp only [okRun] at hok
  split_ifs at hok
  · exact ⟨_, hok.2⟩
  · exact ⟨_, hok.2⟩

theorem okRun_fiveOnes (k : Nat) (bits : List Int) (hok : okRun k bits) :
    FiveOnesThenZero bits := by
  intro i
  induction i generalizing k bits with
  | zero =>
    intro hones
    have := okRun_ones 5 k bits hok (fun j hj => by simpa using hones j hj) (by omega)
    simpa using this
  | succ i ih =>
    intro hones
    cases bits with
    | nil => simpa using hones 0 (by omega)
    | cons b bs =>
      obtain ⟨k2, hk2⟩ := okRun_tail k b bs hok
      have := ih k2 bs hk2 (fun j hj => by
        have := hones j hj
        rwa [show i + 1 + j = (i + j) + 1 by omega, List.getElem?_cons_succ] at this)
      rwa [show i + 1 + 5 = (i + 5) + 1 by omega, List.getElem?_cons_succ]

theorem fiveOnes_noSix (bits : List Int) (h : FiveOnesThenZero bits) : NoSixOnes bits := by
  intro i hsix
  have h0 := h i (fun k hk => hsix k (by omega))
  have h1 := hsix 5 (by omega)
  rw [h0] at h1
  simp at h1

theorem send_data_list_newBits (chan : Nat) (scr nrzi : Int) (xs : List Int) (s : State) :
    newBits s (send_data_list chan scr nrzi xs s) = hdlcStuff (s.stuff chan) (bytesBits xs) := by
  rw [send_data_list_eq, send_bits_eq]
  simp [newBits, setStuff, Function.comp_def]

theorem frameBits_take (fcs_calc : List Nat → Int → Nat) (fbuf : List Nat) (flen bad_fcs : Int) :
    (frameBits fcs_calc fbuf flen bad_fcs).take 32 = flagBits ++ flagBits ++ flagBits ++ flagBits := by
  simp only [frameBits, List.append_assoc]
  rfl

theorem frameBits_drop (fcs_calc : List Nat → Int → Nat) (fbuf : List Nat) (flen bad_fcs : Int) :
    (frameBits fcs_calc fbuf flen bad_fcs).drop
        ((frameBits fcs_calc fbuf flen bad_fcs).length - 16) = flagBits ++ flagBits := by
  have h : frameBits fcs_calc fbuf flen bad_fcs =
      (flagBits ++ flagBits ++ flagBits ++ flagBits ++ hdlcStuff 0 (bytesBits
        (payload fbuf flen ++ fcsBytes (fcs_value fcs_calc fbuf flen) bad_fcs))) ++
        (flagBits ++ flagBits) := by
    simp only [frameBits, List.append_assoc]
  rw [h]
  apply List.drop_left'
  have h8 : flagBits.length = 8 := rfl
  simp only [List.length_append, h8]
  omega

theorem frameField_bad (fcs_calc : List Nat → Int → Nat) (fbuf : List Nat) (flen bad_fcs : Int)
    (h : bad_fcs ≠ 0) :
    frameField (frameBits fcs_calc fbuf flen bad_fcs) =
      hdlcStuff 0 (bytesBits (payload fbuf flen) ++
        lsbBits 16 (65535 - fcs_value fcs_calc fbuf flen)) := by
  rw [frameField_frameBits, bytesBits_append, fcsBytes_bad _ _ h]

theorem frameField_good (fcs_calc : List Nat → Int → Nat) (fbuf : List Nat) (flen : Int) :
    frameField (frameBits fcs_calc fbuf flen 0) =
      hdlcStuff 0 (bytesBits (payload fbuf flen) ++ lsbBits 16 (fcs_value fcs_calc fbuf flen)) := by
  rw [frameField_frameBits, bytesBits_append, fcsBytes_good]

theorem fcs_value_range (fcs_calc : List Nat → Int → Nat) (fbuf : List Nat) (flen : Int) :
    0 ≤ fcs_value fcs_calc fbuf flen ∧ fcs_value fcs_calc fbuf flen < 65536 := by
  unfold fcs_value
  omega

theorem length_bytesBits (xs : List Int) : (bytesBits xs).length = 8 * xs.length := by
  induction xs with
  | nil => rfl
  | cons x xs ih =>
    have hb : bytesBits (x :: xs) = byteBits x ++ bytesBits xs := by simp [bytesBits]
    rw [hb, List.length_append, ih, length_byteBits, List.length_cons]
    omega

theorem bytesBits_replicate_succ (n : Nat) (x : Int) :
    bytesBits (List.replicate (n + 1) x) = bytesBits (List.replicate n x) ++ byteBits x := by
  rw [List.replicate_succ', bytesBits_append]
  simp [bytesBits]

theorem send_control_times (n chan : Nat) (x scr nrzi : Int) (s : State) :
    (List.range n).foldl (fun s _ => send_control chan x scr nrzi s) s =
      setStuff chan (if n = 0 then s.stuff chan else 0)
        (send_bits chan scr nrzi (bytesBits (List.replicate n x)) s) := by
  induction n with
  | zero => simp [bytesBits, send_bits_nil, setStuff_self]
  | succ n ih =>
    rw [List.range_succ, List.foldl_append, ih]
    simp only [List.foldl_cons, List.foldl_nil, send_control_eq, send_bits_setStuff,
      setStuff_setStuff, bytesBits_replicate_succ, send_bits_append]
    simp

theorem hdlc_send_flags_eq (ACHAN2ADEV : Nat → Int) (chan : Nat) (nflags finish : Int) (s : State) :
    (hdlc_send_flags ACHAN2ADEV chan nflags finish s).2 =
      flushIf finish (ACHAN2ADEV chan)
        (setStuff chan (if nflags.toNat = 0 then s.stuff chan else 0)
          (send_bits chan SCRAMBLED NRZI (bytesBits (List.replicate nflags.toNat 0x7e))
            (resetCount chan s))) := by
  unfold hdlc_send_flags
  simp only []
  rw [send_control_times]
  rfl

theorem flushIf_count (finish adev : Int) (s : State) :
    (flushIf finish adev s).number_of_bits_sent = s.number_of_bits_sent := by
  unfold flushIf
  split_ifs <;> rfl

theorem flushIf_stuff (finish adev : Int) (s : State) : (flushIf finish adev s).stuff = s.stuff := by
  unfold flushIf
  split_ifs <;> rfl

theorem flushIf_output (finish adev : Int) (s : State) :
    (flushIf finish adev s).output = s.output := by
  unfold flushIf
  split_ifs <;> rfl

theorem flushIf_sink (finish adev : Int) (s : State) :
    (flushIf finish adev s).sink =
      s.sink ++ (if finish ≠ 0 then [SinkEvent.flush adev] else []) := by
  unfold flushIf
  split_ifs <;> simp

theorem flushIf_bit_log (finish adev : Int) (s : State) :
    (flushIf finish adev s).bit_log = s.bit_log := by
  unfold flushIf
  split_ifs <;> rfl

theorem hdlc_send_flags_ret (ACHAN2ADEV : Nat → Int) (chan : Nat) (nflags finish : Int)
    (s : State) :
    (hdlc_send_flags ACHAN2ADEV chan nflags finish s).1 = 8 * (nflags.toNat : Int) := by
  have h : (hdlc_send_flags ACHAN2ADEV chan nflags finish s).1 =
      (hdlc_send_flags ACHAN2ADEV chan nflags finish s).2.number_of_bits_sent chan := rfl
  rw [h, hdlc_send_flags_eq, flushIf_count, effect_count, length_bytesBits, List.length_replicate]
  push_cast
  rfl

theorem hdlc_send_header_eq (fcs_calc : List Nat → Int → Nat) (chan : Nat) (fbuf : List Nat)
    (flen : Int) (s : State) :
    (hdlc_send_header fcs_calc chan fbuf flen s).2 =
      setStuff chan 0
        (send_bits chan UNSCRAMBLED NO_NRZI (headerBits fcs_calc fbuf flen) (resetCount chan s)) := by
  unfold hdlc_send_header
  simp only []
  rw [send_control_times]
  simp only [send_control_eq, send_bits_setStuff, setStuff_setStuff, headerBits, send_bits_append]
  rfl

theorem length_headerBits (fcs_calc : List Nat → Int → Nat) (fbuf : List Nat) (flen : Int) :
    (headerBits fcs_calc fbuf flen).length = 96 := by
  simp [headerBits, length_bytesBits, length_byteBits]

theorem hdlc_send_header_ret (fcs_calc : List Nat → Int → Nat) (chan : Nat) (fbuf : List Nat)
    (flen : Int) (s : State) :
    (hdlc_send_header fcs_calc chan fbuf flen s).1 = 96 := by
  have h : (hdlc_send_header fcs_calc chan fbuf flen s).1 =
      (hdlc_send_header fcs_calc chan fbuf flen s).2.number_of_bits_sent chan := rfl
  rw [h, hdlc_send_header_eq, effect_count, length_headerBits]
  rfl

theorem calc_data_loop_eq (n : Nat) (x stuffing bits_num : Int) :
    calc_data_loop n x stuffing bits_num =
      bits_num + ((hdlcStuff stuffing (lsbBits n x)).length : Int) := by
  induction n generalizing x stuffing bits_num with
  | zero => simp [calc_data_loop, lsbBits, hdlcStuff]
  | succ n ih =>
    rw [calc_data_loop]
    simp only [land_one, shr_one, ih, lsbBits, hdlcStuff]
    rcases Int.emod_two_eq_zero_or_one x with h | h
    · simp only [h]
      simp
      ring
    · by_cases h5 : stuffing + 1 = 5
      · simp only [h, h5]
        simp
        ring
      · simp only [h, h5]
        simp
        ring

theorem calc_data_eq (x : Int) : calc_data x = ((hdlcStuff 0 (byteBits x)).length : Int) := by
  rw [calc_data, calc_data_loop_eq, byteBits]
  simp

theorem ceil_div_eight (n : Int) : ⌈((n : Int) : ℚ) / 8⌉ = (n + 7) / 8 := by
  rw [Int.ceil_eq_iff]
  constructor
  · rw [lt_div_iff₀ (by norm_num)]
    have h : ((n + 7) / 8 - 1) * 8 < n := by omega
    exact_mod_cast h
  · rw [div_le_iff₀ (by norm_num)]
    have h : n ≤ (n + 7) / 8 * 8 := by omega
    exact_mod_cast h

theorem floor_div_eight (n : Int) : ⌊((n : Int) : ℚ) / 8⌋ = n / 8 := by
  rw [Int.floor_eq_iff]
  constructor
  · rw [le_div_iff₀ (by norm_num)]
    have h : n / 8 * 8 ≤ n := by omega
    exact_mod_cast h
  · rw [div_lt_iff₀ (by norm_num)]
    have h : n < (n / 8 + 1) * 8 := by omega
    exact_mod_cast h

theorem finalLevel_nrzi (p : Int) (hp : p = 0 ∨ p = 1) (bs : List Int) :
    finalLevel NRZI p bs = Int.xor p ((bs.count 0 : Int) % 2) := by
  induction bs generalizing p with
  | nil => rcases hp with hp | hp <;> subst hp <;> decide
  | cons b bs ih =>
    rw [finalLevel]
    by_cases hb : b = 0
    · subst hb
      have hn : next_level NRZI p 0 = 1 - p := by
        rcases hp with hp | hp <;> subst hp <;> decide
      rw [hn, ih (1 - p) (by omega), List.count_cons_self]
      rcases Int.emod_two_eq_zero_or_one (bs.count 0 : Int) with hc | hc
      · have hc2 : (((bs.count 0 + 1 : Nat) : Int)) % 2 = 1 := by push_cast; omega
        rw [hc, hc2]
        rcases hp with hp | hp <;> subst hp <;> decide
      · have hc2 : (((bs.count 0 + 1 : Nat) : Int)) % 2 = 0 := by push_cast; omega
        rw [hc, hc2]
        rcases hp with hp | hp <;> subst hp <;> decide
    · have hn : next_level NRZI p b = p := by simp [next_level, NRZI, hb]
      have hne : (0 : Int) ≠ b := fun h => hb h.symm
      rw [hn, ih p hp, List.count_cons_of_ne hne]

theorem runAfter_range (r : Int) (h0 : 0 ≤ r) (h4 : r ≤ 4) (bits : List Int) :
    0 ≤ runAfter r bits ∧ runAfter r bits ≤ 4 := by
  induction bits generalizing r with
  | nil => exact ⟨h0, h4⟩
  | cons a as ih =>
    simp only [runAfter]
    split_ifs with h1 h5
    · exact ih 0 (by omega) (by omega)
    · exact ih (r + 1) (by omega) (by omega)
    · exact ih 0 (by omega) (by omega)

theorem length_hdlcStuff_run (r1 r2 : Int) (h0 : 0 ≤ r1) (h12 : r1 ≤ r2) (h4 : r2 ≤ 4)
    (bits : List Int) :
    (hdlcStuff r1 bits).length ≤ (hdlcStuff r2 bits).length ∧
      (hdlcStuff r2 bits).length ≤ (hdlcStuff r1 bits).length + 1 := by
  induction bits generalizing r1 r2 with
  | nil => simp [hdlcStuff]
  | cons a as ih =>
    by_cases ha : a = 1
    · by_cases h2 : r2 + 1 = 5
      · by_cases h1 : r1 + 1 = 5
        · simp [hdlcStuff, ha, h1, h2]
        · have := ih 0 (r1 + 1) (by omega) (by omega) (by omega)
          simp only [hdlcStuff, ha, h1, h2, if_true, if_false, List.length_cons]
          omega
      · have h1 : ¬ r1 + 1 = 5 := by omega
        have := ih (r1 + 1) (r2 + 1) (by omega) (by omega) (by omega)
        simp only [hdlcStuff, ha, h1, h2, if_true, if_false, List.length_cons]
        omega
    · simp [hdlcStuff, ha]

theorem length_hdlcStuff_zero_le (r : Int) (h0 : 0 ≤ r) (h4 : r ≤ 4) (bits : List Int) :
    (hdlcStuff 0 bits).length ≤ (hdlcStuff r bits).length :=
  (length_hdlcStuff_run 0 r (by omega) h0 h4 bits).1

theorem mem_frame_events (chan : Nat) (scr nrzi v : Int) (bits : List Int) (s : State)
    (e : SinkEvent)
    (he : e ∈ newEvents s (setStuff chan v (send_bits chan scr nrzi bits (resetCount chan s)))) :
    ∃ l : Int, e = SinkEvent.put_bit chan l scr nrzi := by
  rw [effect_newEvents, List.mem_map] at he
  obtain ⟨l, -, hl⟩ := he
  exact ⟨l, hl.symm⟩

theorem newEvents_flushIf (finish adev : Int) (s t : State) (h : s.sink.length ≤ t.sink.length) :
    newEvents s (flushIf finish adev t) =
      newEvents s t ++ (if finish ≠ 0 then [SinkEvent.flush adev] else []) := by
  simp only [newEvents, flushIf_sink]
  rw [List.drop_append_of_le_length h]

theorem effect_sink_length (chan : Nat) (scr nrzi v : Int) (bits : List Int) (s : State) :
    s.sink.length ≤
      (setStuff chan v (send_bits chan scr nrzi bits (resetCount chan s))).sink.length := by
  rw [send_bits_eq]
  simp [setStuff, resetCount]

set_option maxRecDepth 100000 in
theorem flip_fin : ∀ b : Fin 256, flip (flip b.val) = b.val ∧ flip b.val < 256 ∧
    ∀ i : Fin 8, (flip b.val).testBit i.val = b.val.testBit (7 - i.val) := by
  decide

set_option maxRecDepth 100000 in
theorem flip_byteBits_fin : ∀ b : Fin 256,
    byteBits ((flip b.val : Nat) : Int) = (byteBits ((b.val : Nat) : Int)).reverse := by
  decide

theorem flip_byteBits (b : Nat) (h : b < 256) :
    byteBits ((flip b : Nat) : Int) = (byteBits (b : Int)).reverse :=
  flip_byteBits_fin ⟨b, h⟩

theorem byteBits_not (x : Int) : byteBits (~~~x) = (byteBits x).map (fun b => 1 - b) := by
  rw [not_eq_neg]
  exact lsbBits_neg 8 x

theorem byteBits_not_flip (b : Nat) (h : b < 256) :
    byteBits (~~~((flip b : Nat) : Int)) = ((byteBits (b : Int)).reverse).map (fun b => 1 - b) := by
  rw [byteBits_not, flip_byteBits b h]

theorem land_ff_toNat (x : Int) :
    (Int.land x 0xff).toNat < 256 ∧ (((Int.land x 0xff).toNat : Nat) : Int) = x % 256 := by
  rw [land_ff]
  omega

theorem lenHigh_spec (fcs_calc : List Nat → Int → Nat) (fbuf : List Nat) (flen : Int) :
    lenHigh fcs_calc fbuf flen < 256 ∧
      ((lenHigh fcs_calc fbuf flen : Nat) : Int) = frame_len fcs_calc fbuf flen / 256 % 256 := by
  have h := land_ff_toNat (frame_len fcs_calc fbuf flen >>> (8 : Nat))
  have e : (2 : Int) ^ 8 = 256 := by norm_num
  rw [shr_eq_div, e] at h
  rw [lenHigh, shr_eq_div, e]
  exact h

theorem lenLow_spec (fcs_calc : List Nat → Int → Nat) (fbuf : List Nat) (flen : Int) :
    lenLow fcs_calc fbuf flen < 256 ∧
      ((lenLow fcs_calc fbuf flen : Nat) : Int) = frame_len fcs_calc fbuf flen % 256 :=
  land_ff_toNat (frame_len fcs_calc fbuf flen)

theorem headerBits_split (fcs_calc : List Nat → Int → Nat) (fbuf : List Nat) (flen : Int) :
    headerBits fcs_calc fbuf flen =
      preambleSyncBits ++
        (byteBits (~~~((flip (lenHigh fcs_calc fbuf flen) : Nat) : Int)) ++
          byteBits (~~~((flip (lenLow fcs_calc fbuf flen) : Nat) : Int))) := by
  have h : bytesBits (List.replicate 8 0xAA) ++ byteBits (~~~(0x7c : Int)) ++
      byteBits (~~~(0x56 : Int)) = preambleSyncBits := by decide
  rw [headerBits, h, List.append_assoc]
  rfl

theorem lineLevels_direct (prev : Int) (bits : List Int) :
    lineLevels NO_NRZI prev bits = bits := by
  induction bits generalizing prev with
  | nil => rfl
  | cons b bs ih =>
    rw [lineLevels, ih]
    simp [next_level, NO_NRZI]

theorem header_newBits (fcs_calc : List Nat → Int → Nat) (chan : Nat) (fbuf : List Nat)
    (flen : Int) (s : State) :
    newBits s (hdlc_send_header fcs_calc chan fbuf flen s).2 = headerBits fcs_calc fbuf flen := by
  rw [hdlc_send_header_eq, effect_newBits]

theorem header_newEvents (fcs_calc : List Nat → Int → Nat) (chan : Nat) (fbuf : List Nat)
    (flen : Int) (s : State) :
    newEvents s (hdlc_send_header fcs_calc chan fbuf flen s).2 =
      (headerBits fcs_calc fbuf flen).map
        (fun l => SinkEvent.put_bit chan l UNSCRAMBLED NO_NRZI) := by
  rw [hdlc_send_header_eq, effect_newEvents, lineLevels_direct]

theorem header_newLevels (fcs_calc : List Nat → Int → Nat) (chan : Nat) (fbuf : List Nat)
    (flen : Int) (s : State) :
    newLevels s (hdlc_send_header fcs_calc chan fbuf flen s).2 = headerBits fcs_calc fbuf flen := by
  rw [hdlc_send_header_eq, effect_newLevels, lineLevels_direct]

theorem lsbBits_getElem (n : Nat) (x : Int) :
    lsbBits n x = (List.range n).map (fun i : Nat => Int.land (x >>> i) 1) := by
  induction n generalizing x with
  | zero => rfl
  | succ n ih =>
    rw [lsbBits, ih, List.range_succ_eq_map, List.map_cons, List.map_map]
    congr 1
    · rw [land_one, shr_eq_div]; simp
    · apply List.map_congr_left
      intro i _
      simp only [Function.comp, land_one, shr_eq_div, div_two_div_pow]

theorem send_control_newBits (chan : Nat) (x scr nrzi : Int) (s : State) :
    newBits s (send_control chan x scr nrzi s) = byteBits x := by
  rw [send_control_eq, send_bits_eq]
  simp [newBits, setStuff, Function.comp_def]

theorem send_data_newBits (chan : Nat) (x scr nrzi : Int) (s : State) :
    newBits s (send_data chan x scr nrzi s) = hdlcStuff (s.stuff chan) (byteBits x) := by
  rw [send_data_eq, send_bits_eq]
  simp [newBits, setStuff, Function.comp_def]

theorem send_data_stuff (chan : Nat) (x scr nrzi : Int) (s : State) :
    (send_data chan x scr nrzi s).stuff chan = runAfter (s.stuff chan) (byteBits x) := by
  rw [send_data_eq, setStuff_stuff]

theorem stuffedByteCounts_eq (chan : Nat) (scr nrzi : Int) (xs : List Int) (s : State) :
    stuffedByteCounts chan scr nrzi xs s = byteLens (s.stuff chan) xs := by
  induction xs generalizing s with
  | nil => rfl
  | cons x xs ih =>
    rw [stuffedByteCounts, ih, send_data_newBits, send_data_stuff, byteLens]

theorem afterStartFlags_stuff (chan : Nat) (s : State) : (afterStartFlags chan s).stuff chan = 0 := by
  rw [afterStartFlags, send_control_eq, setStuff_stuff]

theorem hdlc_send_frame_split (fcs_calc : List Nat → Int → Nat) (chan : Nat) (fbuf : List Nat)
    (flen bad_fcs : Int) (s : State) :
    (hdlc_send_frame fcs_calc chan fbuf flen bad_fcs s).2 =
      send_control chan 0x7e SCRAMBLED NRZI (send_control chan 0x7e SCRAMBLED NRZI
        (send_data_list chan SCRAMBLED NRZI
          (payload fbuf flen ++ fcsBytes (fcs_value fcs_calc fbuf flen) bad_fcs)
          (afterStartFlags chan s))) := by
  unfold hdlc_send_frame
  simp only []
  rw [fcs_tail_eq, frame_loop_eq, ← send_data_list_append]
  rfl

theorem frameByteCounts_eq (fcs_calc : List Nat → Int → Nat) (chan : Nat) (fbuf : List Nat)
    (flen bad_fcs : Int) (s : State) :
    frameByteCounts fcs_calc chan fbuf flen bad_fcs s =
      byteLens 0 (payload fbuf flen ++ fcsBytes (fcs_value fcs_calc fbuf flen) bad_fcs) := by
  rw [frameByteCounts, stuffedByteCounts_eq, afterStartFlags_stuff]

theorem length_hdlcStuff_ge (r : Int) (bits : List Int) :
    bits.length ≤ (hdlcStuff r bits).length := by
  induction bits generalizing r with
  | nil => simp [hdlcStuff]
  | cons a as ih =>
    simp only [hdlcStuff]
    split_ifs
    · have := ih 0
      simp only [List.length_cons]
      omega
    · have := ih (r + 1)
      simp only [List.length_cons]
      omega
    · have := ih 0
      simp only [List.length_cons]
      omega

theorem length_hdlcStuff_le (r : Int) (h0 : 0 ≤ r) (h4 : r ≤ 4) (bits : List Int) :
    5 * ((hdlcStuff r bits).length : Int) + runAfter r bits ≤ r + 6 * (bits.length : Int) := by
  induction bits generalizing r with
  | nil => simp [hdlcStuff, runAfter]
  | cons a as ih =>
    have hz := ih 0 (by omega) (by omega)
    simp only [hdlcStuff, runAfter]
    split_ifs with h1 h5
    · simp only [List.length_cons]
      push_cast
      omega
    · have := ih (r + 1) (by omega) (by omega)
      simp only [List.length_cons]
      push_cast
      omega
    · simp only [List.length_cons]
      push_cast
      omega

theorem byteLens_range (r : Int) (h0 : 0 ≤ r) (h4 : r ≤ 4) (xs : List Int) :
    ∀ n ∈ byteLens r xs, 8 ≤ n ∧ n ≤ 10 := by
  induction xs generalizing r with
  | nil => intro n hn; simp [byteLens] at hn
  | cons x xs ih =>
    intro n hn
    rw [byteLens, List.mem_cons] at hn
    have hr := runAfter_range r h0 h4 (byteBits x)
    rcases hn with hn | hn
    · have hge := length_hdlcStuff_ge r (byteBits x)
      have hle := length_hdlcStuff_le r h0 h4 (byteBits x)
      rw [length_byteBits] at hge hle
      subst hn
      constructor
      · exact hge
      · omega
    · exact ih _ hr.1 hr.2 n hn

theorem byteLens_sum (r : Int) (xs : List Int) :
    (byteLens r xs).sum = (hdlcStuff r (bytesBits xs)).length := by
  induction xs generalizing r with
  | nil => simp [byteLens, bytesBits, hdlcStuff]
  | cons x xs ih =>
    have hb : bytesBits (x :: xs) = byteBits x ++ bytesBits xs := by simp [bytesBits]
    rw [byteLens, List.sum_cons, ih, hb, hdlcStuff_append, List.length_append]

theorem length_frameBits (fcs_calc : List Nat → Int → Nat) (fbuf : List Nat) (flen bad_fcs : Int) :
    (frameBits fcs_calc fbuf flen bad_fcs).length =
      48 + (hdlcStuff 0 (bytesBits
        (payload fbuf flen ++ fcsBytes (fcs_value fcs_calc fbuf flen) bad_fcs))).length := by
  have h8 : flagBits.length = 8 := rfl
  simp only [frameBits, List.length_append, h8]
  omega

theorem length_fcsBytes (fcs bad_fcs : Int) : (fcsBytes fcs bad_fcs).length = 2 := by
  unfold fcsBytes
  split_ifs <;> rfl

theorem length_payload (fbuf : List Nat) (flen : Int) : (payload fbuf flen).length = flen.toNat := by
  simp [payload]

theorem foldl_add_sum (f : Nat → Int) (l : List Nat) (a : Int) :
    l.foldl (fun acc j => acc + f j) a = a + (l.map f).sum := by
  induction l generalizing a with
  | nil => simp
  | cons x xs ih =>
    rw [List.foldl_cons, ih, List.map_cons, List.sum_cons]
    ring

theorem calculate_len_eq (fcs_calc : List Nat → Int → Nat) (fbuf : List Nat) (flen : Int) :
    calculate_len fcs_calc fbuf flen =
      calcSum (payload fbuf flen ++ fcsBytes (fcs_value fcs_calc fbuf flen) 0) := by
  have hf : fcsBytes (fcs_value fcs_calc fbuf flen) 0 =
      [Int.land (fcs_value fcs_calc fbuf flen) 0xff,
        Int.land (fcs_value fcs_calc fbuf flen >>> (8 : Nat)) 0xff] := rfl
  unfold calculate_len
  simp only []
  rw [foldl_add_sum, hf, calcSum, payload, List.map_append, List.sum_append, List.map_map]
  simp only [List.map_cons, List.map_nil, List.sum_cons, List.sum_nil, Function.comp_def]
  ring

theorem leadInsert_false_length (r1 r2 : Int) (h12 : r1 ≤ r2) (h4 : r2 ≤ 4) (bits : List Int)
    (h : leadInsert r2 bits = false) :
    (hdlcStuff r2 bits).length = (hdlcStuff r1 bits).length := by
  induction bits generalizing r1 r2 with
  | nil => rfl
  | cons a as ih =>
    by_cases ha : a = 1
    · by_cases h2 : r2 + 1 = 5
      · simp [leadInsert, ha, h2] at h
      · simp only [leadInsert, ha, h2, if_true, if_false] at h
        have h1 : ¬ r1 + 1 = 5 := by omega
        simp only [hdlcStuff, ha, h1, h2, if_true, if_false, List.length_cons]
        rw [ih (r1 + 1) (r2 + 1) (by omega) (by omega) h]
    · simp [hdlcStuff, ha]

theorem calcSum_cons (x : Int) (xs : List Int) :
    calcSum (x :: xs) = ((hdlcStuff 0 (byteBits x)).length : Int) + calcSum xs := by
  simp [calcSum, calc_data_eq]

theorem calcSum_le (r : Int) (h0 : 0 ≤ r) (h4 : r ≤ 4) (xs : List Int) :
    calcSum xs ≤ ((hdlcStuff r (bytesBits xs)).length : Int) := by
  induction xs generalizing r with
  | nil => simp [calcSum, bytesBits, hdlcStuff]
  | cons x xs ih =>
    have hb : bytesBits (x :: xs) = byteBits x ++ bytesBits xs := by simp [bytesBits]
    have hr := runAfter_range r h0 h4 (byteBits x)
    have hm := length_hdlcStuff_zero_le r h0 h4 (byteBits x)
    have hi := ih (runAfter r (byteBits x)) hr.1 hr.2
    rw [hb, hdlcStuff_append, List.length_append, calcSum_cons]
    push_cast
    omega

theorem calcSum_eq_of_no_cross (r : Int) (h0 : 0 ≤ r) (h4 : r ≤ 4) (xs : List Int)
    (hx : crossInsert r xs = false) :
    calcSum xs = ((hdlcStuff r (bytesBits xs)).length : Int) := by
  induction xs generalizing r with
  | nil => simp [calcSum, bytesBits, hdlcStuff]
  | cons x xs ih =>
    have hb : bytesBits (x :: xs) = byteBits x ++ bytesBits xs := by simp [bytesBits]
    have hr := runAfter_range r h0 h4 (byteBits x)
    simp only [crossInsert, Bool.or_eq_false_iff, Bool.and_eq_false_iff,
      decide_eq_false_iff_not] at hx
    have hi := ih (runAfter r (byteBits x)) hr.1 hr.2 hx.2
    have hy : (hdlcStuff r (byteBits x)).length = (hdlcStuff 0 (byteBits x)).length := by
      rcases hx.1 with h | h
      · have hr0 : r = 0 := by omega
        rw [hr0]
      · exact leadInsert_false_length 0 r h0 h4 _ h
    rw [hb, hdlcStuff_append, List.length_append, calcSum_cons, hi, hy]
    push_cast
    rfl

theorem frame_stuff (fcs_calc : List Nat → Int → Nat) (chan : Nat) (fbuf : List Nat)
    (flen bad_fcs : Int) (s : State) :
    (hdlc_send_frame fcs_calc chan fbuf flen bad_fcs s).2.stuff = setAt s.stuff chan 0 := by
  rw [hdlc_send_frame_eq, effect_stuff]

theorem header_stuff (fcs_calc : List Nat → Int → Nat) (chan : Nat) (fbuf : List Nat)
    (flen : Int) (s : State) :
    (hdlc_send_header fcs_calc chan fbuf flen s).2.stuff = setAt s.stuff chan 0 := by
  rw [hdlc_send_header_eq, effect_stuff]

theorem flags_stuff (ACHAN2ADEV : Nat → Int) (chan : Nat) (nflags finish : Int) (s : State) :
    (hdlc_send_flags ACHAN2ADEV chan nflags finish s).2.stuff =
      setAt s.stuff chan (if 1 ≤ nflags then 0 else s.stuff chan) := by
  rw [hdlc_send_flags_eq, flushIf_stuff, effect_stuff]
  by_cases h : 1 ≤ nflags
  · have h2 : ¬ nflags.toNat = 0 := by omega
    simp [h, h2]
  · have h2 : nflags.toNat = 0 := by omega
    simp [h, h2]

theorem setAt_range (a : Nat → Int) (i : Nat) (v : Int) (hv : 0 ≤ v ∧ v ≤ 4)
    (ha : ∀ c, 0 ≤ a c ∧ a c ≤ 4) (c : Nat) : 0 ≤ setAt a i v c ∧ setAt a i v c ≤ 4 := by
  by_cases h : c = i
  · rw [h, setAt_same]; exact hv
  · rw [setAt_other _ _ h]; exact ha c

theorem reachable_stuff (fcs_calc : List Nat → Int → Nat) (ACHAN2ADEV : Nat → Int) (t : State)
    (h : Reachable fcs_calc ACHAN2ADEV t) : ∀ c, 0 ≤ t.stuff c ∧ t.stuff c ≤ 4 := by
  induction h with
  | init =>
    intro c
    have h : State.init.stuff c = 0 := rfl
    rw [h]
    exact ⟨le_refl _, by decide⟩
  | frame chan fbuf flen bad_fcs s _ ih =>
    rw [frame_stuff]
    exact setAt_range _ _ _ ⟨le_refl _, by decide⟩ ih
  | flags chan nflags finish s _ ih =>
    rw [flags_stuff]
    refine setAt_range _ _ _ ?_ ih
    split_ifs
    · exact ⟨le_refl _, by decide⟩
    · exact ih chan
  | header chan fbuf flen s _ ih =>
    rw [header_stuff]
    exact setAt_range _ _ _ ⟨le_refl _, by decide⟩ ih

theorem flags_newEvents (ACHAN2ADEV : Nat → Int) (chan : Nat) (nflags finish : Int) (s : State) :
    newEvents s (hdlc_send_flags ACHAN2ADEV chan nflags finish s).2 =
      (lineLevels NRZI (s.output chan) (bytesBits (List.replicate nflags.toNat 0x7e))).map
          (fun l => SinkEvent.put_bit chan l SCRAMBLED NRZI) ++
        (if finish ≠ 0 then [SinkEvent.flush (ACHAN2ADEV chan)] else []) := by
  rw [hdlc_send_flags_eq, newEvents_flushIf _ _ _ _ (effect_sink_length _ _ _ _ _ _),
    effect_newEvents]

theorem length_lineLevels (nrzi prev : Int) (bits : List Int) :
    (lineLevels nrzi prev bits).length = bits.length := by
  induction bits generalizing prev with
  | nil => rfl
  | cons b bs ih => simp [lineLevels, ih]

theorem next_level_compl (p b : Int) (hp : p = 0 ∨ p = 1) :
    next_level NRZI (1 - p) b = 1 - next_level NRZI p b ∧
      (next_level NRZI p b = 0 ∨ next_level NRZI p b = 1) := by
  by_cases hb : b = 0
  · rcases hp with hp | hp <;> subst hp <;> subst hb <;> decide
  · rcases hp with hp | hp <;> subst hp <;> simp [next_level, NRZI, hb]

theorem lineLevels_compl (p : Int) (hp : p = 0 ∨ p = 1) (bits : List Int) :
    lineLevels NRZI (1 - p) bits = (lineLevels NRZI p bits).map (fun l => 1 - l) := by
  induction bits generalizing p with
  | nil => rfl
  | cons b bs ih =>
    have h := next_level_compl p b hp
    rw [lineLevels, lineLevels, List.map_cons, h.1, ih _ h.2]

/-! ## The claims -/

/-- C2: the logical bits `send_data` hands to `send_bit` for any byte sequence,
starting from a run counter in 0..4, are the zero-insertion stuffing of the
bytes' bits; every five consecutive 1s in them are immediately followed by a 0
(also at the end of the sequence and across byte boundaries), so they never
hold six consecutive 1s. -/
theorem send_data_stuffing_invariant (chan : Nat) (scr nrzi : Int) (xs : List Int) (s : State)
    (h0 : 0 ≤ s.stuff chan) (h4 : s.stuff chan ≤ 4) :
    newBits s (send_data_list chan scr nrzi xs s) = hdlcStuff (s.stuff chan) (bytesBits xs) ∧
      FiveOnesThenZero (newBits s (send_data_list chan scr nrzi xs s)) ∧
      NoSixOnes (newBits s (send_data_list chan scr nrzi xs s)) := by
  have hf : FiveOnesThenZero (newBits s (send_data_list chan scr nrzi xs s)) := by
    rw [send_data_list_newBits]
    exact okRun_fiveOnes 0 _ (okRun_hdlcStuff 0 _ (by simpa using h0) h4 _ (allBits_bytesBits xs))
  exact ⟨send_data_list_newBits chan scr nrzi xs s, hf, fiveOnes_noSix _ hf⟩

/-- C3: round trip.  NRZI-decoding the line levels of a frame sent with
`bad_fcs = 0` (previous level: the channel's level before the call), dropping
the 4 leading and 2 trailing flag bytes and destuffing gives the bits of the
payload bytes, then of the checksum low byte, then of the checksum high byte,
each byte least significant bit first. -/
theorem hdlc_send_frame_roundtrip (fcs_calc : List Nat → Int → Nat) (chan : Nat)
    (fbuf : List Nat) (flen : Int) (s : State) :
    destuff 0 (frameField (nrziDecode (s.output chan)
        (newLevels s (hdlc_send_frame fcs_calc chan fbuf flen 0 s).2))) =
      bytesBits (payload fbuf flen ++
        [fcs_value fcs_calc fbuf flen % 256, fcs_value fcs_calc fbuf flen / 256]) := by
  rw [frame_newLevels, nrziDecode_lineLevels _ _ (allBits_frameBits _ _ _ _),
    frameField_frameBits, bytesBits_append, fcsBytes_good, lsbBits_sixteen_bytes,
    ← bytesBits_append]
  exact destuff_hdlcStuff 0 (by omega) _ (allBits_bytesBits _)

/-- C5: with `bad_fcs = 0` the logical bits of a frame are four unstuffed flag
bytes 0x7E (0,1,1,1,1,1,1,0), the zero-insertion stuffing (counter starting at
0, carried across bytes) of the bits of the payload bytes, the checksum low
byte and the checksum high byte, and two unstuffed flag bytes; the returned
value is the length of that sequence. -/
theorem hdlc_send_frame_bits (fcs_calc : List Nat → Int → Nat) (chan : Nat)
    (fbuf : List Nat) (flen : Int) (s : State) :
    newBits s (hdlc_send_frame fcs_calc chan fbuf flen 0 s).2 =
        flagBits ++ flagBits ++ flagBits ++ flagBits ++
          hdlcStuff 0 (bytesBits (payload fbuf flen ++
            [fcs_value fcs_calc fbuf flen % 256, fcs_value fcs_calc fbuf flen / 256])) ++
          flagBits ++ flagBits ∧
      (hdlc_send_frame fcs_calc chan fbuf flen 0 s).1 =
        ((newBits s (hdlc_send_frame fcs_calc chan fbuf flen 0 s).2).length : Int) ∧
      byteBits 0x7E = flagBits := by
  refine ⟨?_, ?_, byteBits_flag⟩
  · rw [frame_newBits, frameBits_good]
  · rw [frame_newBits, frame_ret]

/-- C4: fault injection.  With `bad_fcs` non-zero the checksum field of the
frame, after destuffing, is the 16 bits (low byte first, each byte least
significant bit first) of the 16-bit complement `65535 - fcs` of the checksum,
bit by bit the inverse of the field sent with `bad_fcs = 0`; the stuffed payload
bits and the leading and trailing flag bytes are those of the frame sent with
`bad_fcs = 0`. -/
theorem hdlc_send_frame_bad_fcs (fcs_calc : List Nat → Int → Nat) (chan : Nat)
    (fbuf : List Nat) (flen bad_fcs : Int) (s : State) (h : bad_fcs ≠ 0) :
    destuff 0 (frameField (newBits s (hdlc_send_frame fcs_calc chan fbuf flen bad_fcs s).2)) =
        bytesBits (payload fbuf flen) ++ lsbBits 16 (65535 - fcs_value fcs_calc fbuf flen) ∧
      destuff 0 (frameField (newBits s (hdlc_send_frame fcs_calc chan fbuf flen 0 s).2)) =
        bytesBits (payload fbuf flen) ++ lsbBits 16 (fcs_value fcs_calc fbuf flen) ∧
      (~~~(fcs_value fcs_calc fbuf flen)) % 65536 = 65535 - fcs_value fcs_calc fbuf flen ∧
      lsbBits 16 (65535 - fcs_value fcs_calc fbuf flen) =
        (lsbBits 16 (fcs_value fcs_calc fbuf flen)).map (fun b => 1 - b) ∧
      frameField (newBits s (hdlc_send_frame fcs_calc chan fbuf flen bad_fcs s).2) =
        hdlcStuff 0 (bytesBits (payload fbuf flen)) ++
          hdlcStuff (runAfter 0 (bytesBits (payload fbuf flen)))
            (lsbBits 16 (65535 - fcs_value fcs_calc fbuf flen)) ∧
      frameField (newBits s (hdlc_send_frame fcs_calc chan fbuf flen 0 s).2) =
        hdlcStuff 0 (bytesBits (payload fbuf flen)) ++
          hdlcStuff (runAfter 0 (bytesBits (payload fbuf flen)))
            (lsbBits 16 (fcs_value fcs_calc fbuf flen)) ∧
      (newBits s (hdlc_send_frame fcs_calc chan fbuf flen bad_fcs s).2).take 32 =
        (newBits s (hdlc_send_frame fcs_calc chan fbuf flen 0 s).2).take 32 ∧
      (newBits s (hdlc_send_frame fcs_calc chan fbuf flen bad_fcs s).2).drop
          ((newBits s (hdlc_send_frame fcs_calc chan fbuf flen bad_fcs s).2).length - 16) =
        (newBits s (hdlc_send_frame fcs_calc chan fbuf flen 0 s).2).drop
          ((newBits s (hdlc_send_frame fcs_calc chan fbuf flen 0 s).2).length - 16) := by
  have hr := fcs_value_range fcs_calc fbuf flen
  simp only [frame_newBits]
  refine ⟨?_, ?_, ?_, lsbBits_compl _, ?_, ?_, ?_, ?_⟩
  · rw [frameField_bad _ _ _ _ h]
    exact destuff_hdlcStuff 0 (by omega) _
      (allBits_append (allBits_bytesBits _) (allBits_lsbBits _ _))
  · rw [frameField_good]
    exact destuff_hdlcStuff 0 (by omega) _
      (allBits_append (allBits_bytesBits _) (allBits_lsbBits _ _))
  · rw [not_eq_neg]
    omega
  · rw [frameField_bad _ _ _ _ h, hdlcStuff_append]
  · rw [frameField_good, hdlcStuff_append]
  · rw [frameBits_take, frameBits_take]
  · rw [frameBits_drop, frameBits_drop]

/-- Witness for C4: payload `[0xFF]`, checksum 0x1234, `bad_fcs = 1`, from the initial state. -/
theorem hdlc_send_frame_bad_fcs_witness :
    (1 : Int) ≠ 0 ∧ destuff 0 (frameField (newBits State.init
        (hdlc_send_frame (fun _ _ => 0x1234) 0 [0xFF] 1 1 State.init).2)) =
      bytesBits (payload [0xFF] 1) ++
        lsbBits 16 (65535 - fcs_value (fun _ _ => 0x1234) [0xFF] 1) :=
  ⟨by decide,
    (hdlc_send_frame_bad_fcs (fun _ _ => 0x1234) 0 [0xFF] 1 1 State.init (by decide)).1⟩

/-- Witness for C2: two bytes 0xFF sent from the initial state. -/
theorem send_data_stuffing_invariant_witness :
    (0 ≤ State.init.stuff 0 ∧ State.init.stuff 0 ≤ 4) ∧
      FiveOnesThenZero (newBits State.init
        (send_data_list 0 SCRAMBLED NRZI [0xFF, 0xFF] State.init)) :=
  ⟨⟨by decide, by decide⟩,
    (send_data_stuffing_invariant 0 SCRAMBLED NRZI [0xFF, 0xFF] State.init
      (by decide) (by decide)).2.1⟩

/-- C6: `hdlc_send_flags` returns exactly `8 * nflags` for every `nflags ≥ 0`,
every channel state (whatever `number_of_bits_sent` and `stuff` held) and
either value of `finish`. -/
theorem hdlc_send_flags_returns (ACHAN2ADEV : Nat → Int) (chan : Nat) (nflags finish : Int)
    (s : State) (h : 0 ≤ nflags) :
    (hdlc_send_flags ACHAN2ADEV chan nflags finish s).1 = 8 * nflags := by
  rw [hdlc_send_flags_ret, Int.toNat_of_nonneg h]

/-- Witness for C6: three flags with `finish = 1` from the initial state. -/
theorem hdlc_send_flags_returns_witness :
    (0 : Int) ≤ 3 ∧ (hdlc_send_flags (fun c => c / 2) 0 3 1 State.init).1 = 8 * 3 :=
  ⟨by decide, hdlc_send_flags_returns (fun c => c / 2) 0 3 1 State.init (by decide)⟩

/-- C7: `hdlc_send_header` returns exactly 96 for every payload, length,
checksum function and initial channel state. -/
theorem hdlc_send_header_returns (fcs_calc : List Nat → Int → Nat) (chan : Nat)
    (fbuf : List Nat) (flen : Int) (s : State) :
    (hdlc_send_header fcs_calc chan fbuf flen s).1 = 96 :=
  hdlc_send_header_ret fcs_calc chan fbuf flen s

/-- C8, as the specification states it, fails: for the empty payload with
checksum 0 the predicted length is 16 bits and the source computes
`frame_len = (16 + 47) >> 3 = 7`, while the exact quotient 63/8 rounded up is 8. -/
theorem frame_len_not_ceil :
    frame_len (fun _ _ => 0) [] 0 ≠ frameLenCeilSpec (calculate_len (fun _ _ => 0) [] 0) := by
  have h1 : calculate_len (fun _ _ => 0) [] 0 = 16 := by decide
  have h2 : frame_len (fun _ _ => 0) [] 0 = 7 := by decide
  rw [h2, frameLenCeilSpec, h1, ceil_div_eight]
  decide

/-- C8, amended: the frame length `hdlc_send_header` encodes is the quotient
`(totalBits + 7 + 16 + 24) / 8` rounded down, which is the exact quotient
`(totalBits + 16 + 24) / 8` rounded up, with `totalBits = calculate_len (fbuf, flen)`. -/
theorem frame_len_floor (fcs_calc : List Nat → Int → Nat) (fbuf : List Nat) (flen : Int) :
    frame_len fcs_calc fbuf flen =
        ⌊((calculate_len fcs_calc fbuf flen + 7 + 16 + 24 : Int) : ℚ) / 8⌋ ∧
      frame_len fcs_calc fbuf flen =
        ⌈((calculate_len fcs_calc fbuf flen + 16 + 24 : Int) : ℚ) / 8⌉ := by
  rw [floor_div_eight, ceil_div_eight, frame_len, shr_eq_div]
  constructor
  · norm_num
  · norm_num
    omega

/-- C9: on a channel whose level is 0 or 1, `send_bit` in NRZI mode inverts
the level for a bit 0 and keeps it for a bit 1; with direct mapping the level
becomes the bit.  In both modes `number_of_bits_sent` grows by exactly 1 and
exactly one event, carrying the new level, is forwarded to the sink.  After a
sequence of NRZI-mode bits the level is the initial level XOR the parity of the
number of 0 bits sent. -/
theorem send_bit_levels (chan : Nat) (b scr : Int) (s : State)
    (h : s.output chan = 0 ∨ s.output chan = 1) :
    (send_bit chan 0 scr NRZI s).output chan = 1 - s.output chan ∧
      (send_bit chan 1 scr NRZI s).output chan = s.output chan ∧
      (send_bit chan b scr NO_NRZI s).output chan = b ∧
      (∀ nrzi : Int, nrzi = NRZI ∨ nrzi = NO_NRZI →
        (send_bit chan b scr nrzi s).number_of_bits_sent chan = s.number_of_bits_sent chan + 1 ∧
        (send_bit chan b scr nrzi s).sink =
          s.sink ++ [SinkEvent.put_bit chan ((send_bit chan b scr nrzi s).output chan) scr nrzi]) ∧
      (∀ bs : List Int, (send_bits chan scr NRZI bs s).output chan =
        Int.xor (s.output chan) ((bs.count 0 : Int) % 2)) ∧
      NRZI = 0 ∧ NO_NRZI = 1 := by
  refine ⟨?_, ?_, ?_, ?_, ?_, rfl, rfl⟩
  · rw [send_bit_eq]
    simp only [setAt_same]
    rcases h with h | h <;> rw [h] <;> decide
  · rw [send_bit_eq]
    simp [setAt_same, next_level, NRZI]
  · rw [send_bit_eq]
    simp [setAt_same, next_level, NO_NRZI]
  · intro nrzi _
    rw [send_bit_eq]
    simp [setAt_same]
  · intro bs
    rw [send_bits_eq]
    simp only [setAt_same]
    exact finalLevel_nrzi _ h bs

/-- Witness for C9: the initial state, whose level on channel 0 is 0. -/
theorem send_bit_levels_witness :
    (State.init.output 0 = 0 ∨ State.init.output 0 = 1) ∧
      (send_bit 0 0 SCRAMBLED NRZI State.init).output 0 = 1 - State.init.output 0 :=
  ⟨Or.inl rfl, (send_bit_levels 0 0 SCRAMBLED State.init (Or.inl rfl)).1⟩

/-- C1 fails on the code: for the payload `[0xF0, 0x0F]`, whose run of eight 1s
crosses the byte boundary, `calculate_len` is strictly smaller than the number
of payload and checksum bits `hdlc_send_frame` emits (its return value minus the
48 flag bits), for every checksum function, channel and initial state. -/
theorem calculate_len_underestimates (fcs_calc : List Nat → Int → Nat) (chan : Nat) (s : State) :
    calculate_len fcs_calc [0xF0, 0x0F] 2 <
      (hdlc_send_frame fcs_calc chan [0xF0, 0x0F] 2 0 s).1 - 48 := by
  have hp : payload [0xF0, 0x0F] 2 = [0xF0, 0x0F] := by decide
  have hrun : runAfter 0 (bytesBits [0xF0, 0x0F]) = 0 := by decide
  have hlen : (hdlcStuff 0 (bytesBits [0xF0, 0x0F])).length = 17 := by decide
  have hc : calculate_len fcs_calc [0xF0, 0x0F] 2 =
      0 + calc_data (load [0xF0, 0x0F] 0) + calc_data (load [0xF0, 0x0F] 1) +
        calc_data (Int.land (fcs_value fcs_calc [0xF0, 0x0F] 2) 0xff) +
        calc_data (Int.land (fcs_value fcs_calc [0xF0, 0x0F] 2 >>> (8 : Nat)) 0xff) := rfl
  have h1 : calc_data (load [0xF0, 0x0F] 0) = 8 := by decide
  have h2 : calc_data (load [0xF0, 0x0F] 1) = 8 := by decide
  have hf : fcsBytes (fcs_value fcs_calc [0xF0, 0x0F] 2) 0 =
      [Int.land (fcs_value fcs_calc [0xF0, 0x0F] 2) 0xff,
        Int.land (fcs_value fcs_calc [0xF0, 0x0F] 2 >>> (8 : Nat)) 0xff] := rfl
  have hr := runAfter_range 0 (by omega) (by omega)
    (byteBits (Int.land (fcs_value fcs_calc [0xF0, 0x0F] 2) 0xff))
  have hm := length_hdlcStuff_zero_le _ hr.1 hr.2
    (byteBits (Int.land (fcs_value fcs_calc [0xF0, 0x0F] 2 >>> (8 : Nat)) 0xff))
  have h8 : flagBits.length = 8 := rfl
  have hfb : (frameBits fcs_calc [0xF0, 0x0F] 2 0).length =
      48 + 17 +
        ((hdlcStuff 0 (byteBits (Int.land (fcs_value fcs_calc [0xF0, 0x0F] 2) 0xff))).length +
          (hdlcStuff (runAfter 0 (byteBits (Int.land (fcs_value fcs_calc [0xF0, 0x0F] 2) 0xff)))
            (byteBits (Int.land (fcs_value fcs_calc [0xF0, 0x0F] 2 >>> (8 : Nat)) 0xff))).length) := by
    rw [frameBits, hp, bytesBits_append, hdlcStuff_append, hrun, hf,
      bytesBits_pair (Int.land (fcs_value fcs_calc [0xF0, 0x0F] 2) 0xff), hdlcStuff_append]
    simp only [List.length_append, hlen, h8]
    omega
  rw [frame_ret, hc, h1, h2, calc_data_eq, calc_data_eq, hfb]
  push_cast
  omega

/-- C10: channel isolation.  Run on channel `c`, each of `hdlc_send_frame`,
`hdlc_send_flags` and `hdlc_send_header` leaves `output`, `stuff` and
`number_of_bits_sent` of every other channel `c2` unchanged; every bit event it
forwards to the sink carries channel `c`, and the only other event is the flush
of the device of channel `c` that `hdlc_send_flags` may append. -/
theorem channel_isolation (fcs_calc : List Nat → Int → Nat) (ACHAN2ADEV : Nat → Int)
    (c c2 : Nat) (fbuf : List Nat) (flen bad_fcs nflags finish : Int) (s : State)
    (h : c2 ≠ c) :
    ((hdlc_send_frame fcs_calc c fbuf flen bad_fcs s).2.output c2 = s.output c2 ∧
      (hdlc_send_frame fcs_calc c fbuf flen bad_fcs s).2.stuff c2 = s.stuff c2 ∧
      (hdlc_send_frame fcs_calc c fbuf flen bad_fcs s).2.number_of_bits_sent c2 =
        s.number_of_bits_sent c2 ∧
      ∀ e ∈ newEvents s (hdlc_send_frame fcs_calc c fbuf flen bad_fcs s).2,
        ∃ l scr nrzi : Int, e = SinkEvent.put_bit c l scr nrzi) ∧
    ((hdlc_send_flags ACHAN2ADEV c nflags finish s).2.output c2 = s.output c2 ∧
      (hdlc_send_flags ACHAN2ADEV c nflags finish s).2.stuff c2 = s.stuff c2 ∧
      (hdlc_send_flags ACHAN2ADEV c nflags finish s).2.number_of_bits_sent c2 =
        s.number_of_bits_sent c2 ∧
      ∀ e ∈ newEvents s (hdlc_send_flags ACHAN2ADEV c nflags finish s).2,
        (∃ l scr nrzi : Int, e = SinkEvent.put_bit c l scr nrzi) ∨
          e = SinkEvent.flush (ACHAN2ADEV c)) ∧
    ((hdlc_send_header fcs_calc c fbuf flen s).2.output c2 = s.output c2 ∧
      (hdlc_send_header fcs_calc c fbuf flen s).2.stuff c2 = s.stuff c2 ∧
      (hdlc_send_header fcs_calc c fbuf flen s).2.number_of_bits_sent c2 =
        s.number_of_bits_sent c2 ∧
      ∀ e ∈ newEvents s (hdlc_send_header fcs_calc c fbuf flen s).2,
        ∃ l scr nrzi : Int, e = SinkEvent.put_bit c l scr nrzi) := by
  refine ⟨⟨?_, ?_, ?_, ?_⟩, ⟨?_, ?_, ?_, ?_⟩, ⟨?_, ?_, ?_, ?_⟩⟩
  · rw [hdlc_send_frame_eq, effect_output, setAt_other _ _ h]
  · rw [hdlc_send_frame_eq, effect_stuff, setAt_other _ _ h]
  · rw [hdlc_send_frame_eq, effect_count_other _ _ _ _ _ _ h]
  · intro e he
    rw [hdlc_send_frame_eq] at he
    obtain ⟨l, hl⟩ := mem_frame_events _ _ _ _ _ _ e he
    exact ⟨l, _, _, hl⟩
  · rw [hdlc_send_flags_eq, flushIf_output, effect_output, setAt_other _ _ h]
  · rw [hdlc_send_flags_eq, flushIf_stuff, effect_stuff, setAt_other _ _ h]
  · rw [hdlc_send_flags_eq, flushIf_count, effect_count_other _ _ _ _ _ _ h]
  · intro e he
    rw [hdlc_send_flags_eq, newEvents_flushIf _ _ _ _ (effect_sink_length _ _ _ _ _ _),
      List.mem_append] at he
    rcases he with he | he
    · obtain ⟨l, hl⟩ := mem_frame_events _ _ _ _ _ _ e he
      exact Or.inl ⟨l, _, _, hl⟩
    · right
      split_ifs at he
      · simpa using he
      · simp at he
  · rw [hdlc_send_header_eq, effect_output, setAt_other _ _ h]
  · rw [hdlc_send_header_eq, effect_stuff, setAt_other _ _ h]
  · rw [hdlc_send_header_eq, effect_count_other _ _ _ _ _ _ h]
  · intro e he
    rw [hdlc_send_header_eq] at he
    obtain ⟨l, hl⟩ := mem_frame_events _ _ _ _ _ _ e he
    exact ⟨l, _, _, hl⟩

/-- Witness for C10: a frame on channel 0 leaves the level of channel 1 alone. -/
theorem channel_isolation_witness :
    (1 : Nat) ≠ 0 ∧
      (hdlc_send_frame (fun _ _ => 0x1234) 0 [0xFF] 1 0 State.init).2.output 1 =
        State.init.output 1 :=
  ⟨by decide,
    (channel_isolation (fun _ _ => 0x1234) (fun c => c / 2) 0 1 [0xFF] 1 0 3 1 State.init
      (by decide)).1.1⟩

/-- C11: the last 16 bits of a header are the two length bytes, the high
byte `(frame_len >> 8) & 0xff` first and the low byte `frame_len & 0xff` second,
each bit-reversed by `flip`, complemented and sent least significant bit first
by `send_control` with the unscrambled flag and direct mapping; so the 16 line
levels of the length field are the complement of the 16 low bits of `frame_len`
taken most significant bit first. -/
theorem hdlc_send_header_length_field (fcs_calc : List Nat → Int → Nat) (chan : Nat)
    (fbuf : List Nat) (flen : Int) (s : State) :
    (newBits s (hdlc_send_header fcs_calc chan fbuf flen s).2).drop 80 =
        byteBits (~~~((flip (lenHigh fcs_calc fbuf flen) : Nat) : Int)) ++
          byteBits (~~~((flip (lenLow fcs_calc fbuf flen) : Nat) : Int)) ∧
      ((lenHigh fcs_calc fbuf flen : Nat) : Int) = frame_len fcs_calc fbuf flen / 256 % 256 ∧
      ((lenLow fcs_calc fbuf flen : Nat) : Int) = frame_len fcs_calc fbuf flen % 256 ∧
      (newEvents s (hdlc_send_header fcs_calc chan fbuf flen s).2).drop 80 =
        ((newBits s (hdlc_send_header fcs_calc chan fbuf flen s).2).drop 80).map
          (fun l => SinkEvent.put_bit chan l UNSCRAMBLED NO_NRZI) ∧
      (newLevels s (hdlc_send_header fcs_calc chan fbuf flen s).2).drop 80 =
        ((lsbBits 16 (frame_len fcs_calc fbuf flen)).reverse).map (fun b => 1 - b) := by
  have hh := lenHigh_spec fcs_calc fbuf flen
  have hl := lenLow_spec fcs_calc fbuf flen
  have hd : (headerBits fcs_calc fbuf flen).drop 80 =
      byteBits (~~~((flip (lenHigh fcs_calc fbuf flen) : Nat) : Int)) ++
        byteBits (~~~((flip (lenLow fcs_calc fbuf flen) : Nat) : Int)) := by
    rw [headerBits_split]
    exact List.drop_left' rfl
  refine ⟨?_, hh.2, hl.2, ?_, ?_⟩
  · rw [header_newBits, hd]
  · rw [header_newEvents, header_newBits, List.map_drop]
  · rw [header_newLevels, hd, byteBits_not_flip _ hh.1, byteBits_not_flip _ hl.1, hh.2, hl.2,
      byteBits_mod, byteBits_mod, lsbBits_sixteen, List.reverse_append, List.map_append]

/-- C12: `flip` reverses the bit order of a byte: for `b` in 0..255 and `i` in
0..7, bit `i` of `flip b` is bit `7 - i` of `b`; the result stays in 0..255
and `flip (flip b) = b`. -/
theorem flip_reverses (b i : Nat) (hb : b < 256) (hi : i < 8) :
    (flip b).testBit i = b.testBit (7 - i) ∧ flip b < 256 ∧ flip (flip b) = b :=
  ⟨(flip_fin ⟨b, hb⟩).2.2 ⟨i, hi⟩, (flip_fin ⟨b, hb⟩).2.1, (flip_fin ⟨b, hb⟩).1⟩

/-- Witness for C12: the byte 0x01 and its bit 7. -/
theorem flip_reverses_witness :
    (1 < 256 ∧ 7 < 8) ∧
      ((flip 1).testBit 7 = Nat.testBit 1 (7 - 7) ∧ flip 1 < 256 ∧ flip (flip 1) = 1) :=
  ⟨⟨by decide, by decide⟩, flip_reverses 1 7 (by decide) (by decide)⟩

/-- C16: `send_control` emits exactly 8 bits, bits 0..7 of its argument least
significant first, for every `int` argument (negative ones included) and every
`stuff[chan]` before the call; nothing is inserted, the flag 0x7E goes out as
0,1,1,1,1,1,1,0, and `stuff[chan]` is 0 afterwards. -/
theorem send_control_bits (chan : Nat) (x scr nrzi : Int) (s : State) :
    newBits s (send_control chan x scr nrzi s) =
        (List.range 8).map (fun i : Nat => Int.land (x >>> i) 1) ∧
      (newBits s (send_control chan x scr nrzi s)).length = 8 ∧
      newBits s (send_control chan x scr nrzi s) = byteBits (x % 256) ∧
      (send_control chan x scr nrzi s).stuff chan = 0 ∧
      newBits s (send_control chan 0x7e scr nrzi s) = [0, 1, 1, 1, 1, 1, 1, 0] ∧
      newBits s (send_control chan (~~~(0x7c : Int)) scr nrzi s) = [1, 1, 0, 0, 0, 0, 0, 1] ∧
      newBits s (send_control chan (~~~(0x56 : Int)) scr nrzi s) = [1, 0, 0, 1, 0, 1, 0, 1] := by
  simp only [send_control_newBits]
  refine ⟨lsbBits_getElem 8 x, rfl, (byteBits_mod x).symm, ?_, by decide, by decide, by decide⟩
  rw [send_control_eq, setStuff_stuff]

/-- C17: the first 80 events of a header are fixed: eight times the levels
0,1,0,1,0,1,0,1, then 1,1,0,0,0,0,0,1 and 1,0,0,1,0,1,0,1; all 96 events carry
the unscrambled flag and direct mapping, and each forwarded level is the
logical bit, whatever the channel's previous level. -/
theorem hdlc_send_header_preamble (fcs_calc : List Nat → Int → Nat) (chan : Nat)
    (fbuf : List Nat) (flen : Int) (s : State) :
    (newLevels s (hdlc_send_header fcs_calc chan fbuf flen s).2).take 80 = preambleSyncBits ∧
      newEvents s (hdlc_send_header fcs_calc chan fbuf flen s).2 =
        (newBits s (hdlc_send_header fcs_calc chan fbuf flen s).2).map
          (fun l => SinkEvent.put_bit chan l UNSCRAMBLED NO_NRZI) ∧
      (newEvents s (hdlc_send_header fcs_calc chan fbuf flen s).2).length = 96 ∧
      newLevels s (hdlc_send_header fcs_calc chan fbuf flen s).2 =
        newBits s (hdlc_send_header fcs_calc chan fbuf flen s).2 ∧
      UNSCRAMBLED = 1 ∧ NO_NRZI = 1 := by
  refine ⟨?_, ?_, ?_, ?_, rfl, rfl⟩
  · rw [header_newLevels, headerBits_split]
    exact List.take_left' rfl
  · rw [header_newEvents, header_newBits]
  · rw [header_newEvents, List.length_map, length_headerBits]
  · rw [header_newLevels, header_newBits]

set_option maxRecDepth 100000 in
/-- C13, as the specification states it, fails: in the frame with payload
`[0xF0, 0xFF]` the byte 0xFF is entered with a run of four 1s pending and
occupies 10 bits, and in the frame with payload `[0xFF]` and checksum 0x007F the
checksum low byte occupies 10 bits; so a stuffed byte is not always 8 or 9 bits. -/
theorem stuffed_byte_ten_bits :
    frameByteCounts (fun _ _ => 0) 0 [0xF0, 0xFF] 2 0 State.init = [8, 10, 8, 8] ∧
      frameByteCounts (fun _ _ => 0x7F) 0 [0xFF] 1 0 State.init = [9, 10, 8] ∧
      ¬ (∀ n ∈ frameByteCounts (fun _ _ => 0) 0 [0xF0, 0xFF] 2 0 State.init, n = 8 ∨ n = 9) := by
  simp only [frameByteCounts_eq]
  decide

/-- C13, amended: every payload or checksum byte of a frame occupies 8, 9 or
10 emitted bits, the count being the stuffed length of the byte for the run
counter carried in from the bytes before it; the return value is 4*8 plus the
bits of these bytes plus 2*8.  For the payload `[0xFF]` with `bad_fcs = 0` the
payload byte occupies 9 bits and the return value is `4*8 + 9 + c + 2*8` with
`c` the bits of the two checksum bytes, 8 to 10 each. -/
theorem stuffed_byte_counts (fcs_calc : List Nat → Int → Nat) (chan : Nat) (fbuf : List Nat)
    (flen bad_fcs : Int) (s : State) :
    (∀ n ∈ frameByteCounts fcs_calc chan fbuf flen bad_fcs s, 8 ≤ n ∧ n ≤ 10) ∧
      frameByteCounts fcs_calc chan fbuf flen bad_fcs s =
        byteLens 0 (payload fbuf flen ++ fcsBytes (fcs_value fcs_calc fbuf flen) bad_fcs) ∧
      (hdlc_send_frame fcs_calc chan fbuf flen bad_fcs s).1 =
        4 * 8 + ((frameByteCounts fcs_calc chan fbuf flen bad_fcs s).sum : Int) + 2 * 8 ∧
      ∃ c1 c2 : Nat, frameByteCounts fcs_calc chan [0xFF] 1 0 s = [9, c1, c2] ∧
        (8 ≤ c1 ∧ c1 ≤ 10) ∧ (8 ≤ c2 ∧ c2 ≤ 10) ∧
        (hdlc_send_frame fcs_calc chan [0xFF] 1 0 s).1 = 4 * 8 + 9 + ((c1 + c2 : Nat) : Int) + 2 * 8 := by
  have hsum : ∀ (fb : List Nat) (fl bad : Int),
      (hdlc_send_frame fcs_calc chan fb fl bad s).1 =
        4 * 8 + ((frameByteCounts fcs_calc chan fb fl bad s).sum : Int) + 2 * 8 := by
    intro fb fl bad
    rw [frame_ret, length_frameBits, frameByteCounts_eq, byteLens_sum]
    push_cast
    ring
  have hrange : ∀ (fb : List Nat) (fl bad : Int),
      ∀ n ∈ frameByteCounts fcs_calc chan fb fl bad s, 8 ≤ n ∧ n ≤ 10 := by
    intro fb fl bad
    rw [frameByteCounts_eq]
    exact byteLens_range 0 (le_refl _) (by decide) _
  refine ⟨hrange fbuf flen bad_fcs, frameByteCounts_eq _ _ _ _ _ _, hsum fbuf flen bad_fcs, ?_⟩
  have hp : payload [0xFF] 1 = [0xFF] := by decide
  have hf : fcsBytes (fcs_value fcs_calc [0xFF] 1) 0 =
      [Int.land (fcs_value fcs_calc [0xFF] 1) 0xff,
        Int.land (fcs_value fcs_calc [0xFF] 1 >>> (8 : Nat)) 0xff] := rfl
  have h9 : (hdlcStuff 0 (byteBits 0xFF)).length = 9 := by decide
  have hc : frameByteCounts fcs_calc chan [0xFF] 1 0 s =
      [9, (hdlcStuff (runAfter 0 (byteBits 0xFF))
          (byteBits (Int.land (fcs_value fcs_calc [0xFF] 1) 0xff))).length,
        (hdlcStuff (runAfter (runAfter 0 (byteBits 0xFF))
            (byteBits (Int.land (fcs_value fcs_calc [0xFF] 1) 0xff)))
          (byteBits (Int.land (fcs_value fcs_calc [0xFF] 1 >>> (8 : Nat)) 0xff))).length] := by
    rw [frameByteCounts_eq, hp, hf]
    simp only [List.cons_append, List.nil_append, byteLens, h9]
  have hr := hrange [0xFF] 1 0
  have hs := hsum [0xFF] 1 0
  rw [hc] at hr hs
  refine ⟨_, _, hc, hr _ (by simp), hr _ (by simp), ?_⟩
  rw [hs]
  simp only [List.sum_cons, List.sum_nil]
  push_cast
  ring

/-- C14: `hdlc_send_flags` forwards its `8 * nflags` bit events first and then,
exactly when `finish` is non-zero, one flush of the channel's device; the bit
events, the returned count and the channel state are those of the call with
`finish = 0`. -/
theorem hdlc_send_flags_flush (ACHAN2ADEV : Nat → Int) (chan : Nat) (nflags finish : Int)
    (s : State) :
    newEvents s (hdlc_send_flags ACHAN2ADEV chan nflags finish s).2 =
        newEvents s (hdlc_send_flags ACHAN2ADEV chan nflags 0 s).2 ++
          (if finish ≠ 0 then [SinkEvent.flush (ACHAN2ADEV chan)] else []) ∧
      newEvents s (hdlc_send_flags ACHAN2ADEV chan nflags 0 s).2 =
        (newLevels s (hdlc_send_flags ACHAN2ADEV chan nflags 0 s).2).map
          (fun l => SinkEvent.put_bit chan l SCRAMBLED NRZI) ∧
      (newEvents s (hdlc_send_flags ACHAN2ADEV chan nflags 0 s).2).length = 8 * nflags.toNat ∧
      (hdlc_send_flags ACHAN2ADEV chan nflags finish s).1 =
        (hdlc_send_flags ACHAN2ADEV chan nflags 0 s).1 ∧
      (hdlc_send_flags ACHAN2ADEV chan nflags finish s).2.number_of_bits_sent =
        (hdlc_send_flags ACHAN2ADEV chan nflags 0 s).2.number_of_bits_sent ∧
      (hdlc_send_flags ACHAN2ADEV chan nflags finish s).2.stuff =
        (hdlc_send_flags ACHAN2ADEV chan nflags 0 s).2.stuff ∧
      (hdlc_send_flags ACHAN2ADEV chan nflags finish s).2.output =
        (hdlc_send_flags ACHAN2ADEV chan nflags 0 s).2.output ∧
      (hdlc_send_flags ACHAN2ADEV chan nflags finish s).2.bit_log =
        (hdlc_send_flags ACHAN2ADEV chan nflags 0 s).2.bit_log := by
  have h0 : newEvents s (hdlc_send_flags ACHAN2ADEV chan nflags 0 s).2 =
      (lineLevels NRZI (s.output chan) (bytesBits (List.replicate nflags.toNat 0x7e))).map
        (fun l => SinkEvent.put_bit chan l SCRAMBLED NRZI) := by
    rw [flags_newEvents]
    simp
  have hl : newLevels s (hdlc_send_flags ACHAN2ADEV chan nflags 0 s).2 =
      lineLevels NRZI (s.output chan) (bytesBits (List.replicate nflags.toNat 0x7e)) := by
    rw [newLevels, h0, List.filterMap_map]
    simp [Function.comp_def, SinkEvent.level?]
  refine ⟨?_, ?_, ?_, ?_, ?_, ?_, ?_, ?_⟩
  · rw [h0, flags_newEvents]
  · rw [hl, h0]
  · rw [h0, List.length_map, length_lineLevels, length_bytesBits, List.length_replicate]
  · rw [hdlc_send_flags_ret, hdlc_send_flags_ret]
  · rw [hdlc_send_flags_eq, hdlc_send_flags_eq, flushIf_count, flushIf_count]
  · rw [hdlc_send_flags_eq, hdlc_send_flags_eq, flushIf_stuff, flushIf_stuff]
  · rw [hdlc_send_flags_eq, hdlc_send_flags_eq, flushIf_output, flushIf_output]
  · rw [hdlc_send_flags_eq, hdlc_send_flags_eq, flushIf_bit_log, flushIf_bit_log]

/-- C15: if `stuff[chan]` is in 0..4 before `send_data`, `send_control`,
`hdlc_send_frame`, `hdlc_send_flags` or `hdlc_send_header`, it is in 0..4
afterwards; it is exactly 0 after `send_control`, `hdlc_send_frame`,
`hdlc_send_header`, and after `hdlc_send_flags` with `nflags ≥ 1` (unchanged
for `nflags < 1`); so every state reachable from the all-zero storage has every
`stuff` slot in 0..4. -/
theorem stuff_range (fcs_calc : List Nat → Int → Nat) (ACHAN2ADEV : Nat → Int) (chan : Nat)
    (x scr nrzi : Int) (fbuf : List Nat) (flen bad_fcs nflags finish : Int) (s : State)
    (h0 : 0 ≤ s.stuff chan) (h4 : s.stuff chan ≤ 4) :
    (0 ≤ (send_data chan x scr nrzi s).stuff chan ∧ (send_data chan x scr nrzi s).stuff chan ≤ 4) ∧
      (send_control chan x scr nrzi s).stuff chan = 0 ∧
      (hdlc_send_frame fcs_calc chan fbuf flen bad_fcs s).2.stuff chan = 0 ∧
      (hdlc_send_header fcs_calc chan fbuf flen s).2.stuff chan = 0 ∧
      (hdlc_send_flags ACHAN2ADEV chan nflags finish s).2.stuff chan =
        (if 1 ≤ nflags then 0 else s.stuff chan) ∧
      (0 ≤ (hdlc_send_flags ACHAN2ADEV chan nflags finish s).2.stuff chan ∧
        (hdlc_send_flags ACHAN2ADEV chan nflags finish s).2.stuff chan ≤ 4) ∧
      (∀ t : State, Reachable fcs_calc ACHAN2ADEV t → ∀ c : Nat, 0 ≤ t.stuff c ∧ t.stuff c ≤ 4) := by
  have hf : (hdlc_send_flags ACHAN2ADEV chan nflags finish s).2.stuff chan =
      (if 1 ≤ nflags then 0 else s.stuff chan) := by
    rw [flags_stuff, setAt_same]
  refine ⟨?_, ?_, ?_, ?_, hf, ?_, reachable_stuff fcs_calc ACHAN2ADEV⟩
  · rw [send_data_stuff]
    exact runAfter_range _ h0 h4 _
  · rw [send_control_eq, setStuff_stuff]
  · rw [frame_stuff, setAt_same]
  · rw [header_stuff, setAt_same]
  · rw [hf]
    split_ifs
    · exact ⟨le_refl _, by decide⟩
    · exact ⟨h0, h4⟩

/-- Witness for C15: the initial state, channel 0. -/
theorem stuff_range_witness :
    (0 ≤ State.init.stuff 0 ∧ State.init.stuff 0 ≤ 4) ∧
      (0 ≤ (send_data 0 0xFF SCRAMBLED NRZI State.init).stuff 0 ∧
        (send_data 0 0xFF SCRAMBLED NRZI State.init).stuff 0 ≤ 4) :=
  ⟨⟨by decide, by decide⟩,
    (stuff_range (fun _ _ => 0) (fun c => c / 2) 0 0xFF SCRAMBLED NRZI [] 0 0 1 0 State.init
      (by decide) (by decide)).1⟩

set_option maxRecDepth 100000 in
/-- C18, as stated, fails in its "exactly when": for the payload `[0x80, 0x1F]`
with checksum 0, `send_data` enters the byte 0x1F with `stuff = 1` and inserts
its 0 after only four 1s of that byte, a run that crosses the byte boundary,
yet `calculate_len` equals the return value minus 48 (both 33). -/
theorem calculate_len_equal_with_crossing :
    calculate_len (fun _ _ => 0) [0x80, 0x1F] 2 =
        (hdlc_send_frame (fun _ _ => 0) 0 [0x80, 0x1F] 2 0 State.init).1 - 48 ∧
      crossInsert 0 (payload [0x80, 0x1F] 2 ++
        fcsBytes (fcs_value (fun _ _ => 0) [0x80, 0x1F] 2) 0) = true ∧
      (send_data 0 0x80 SCRAMBLED NRZI (afterStartFlags 0 State.init)).stuff 0 = 1 ∧
      newBits (send_data 0 0x80 SCRAMBLED NRZI (afterStartFlags 0 State.init))
          (send_data 0 0x1F SCRAMBLED NRZI
            (send_data 0 0x80 SCRAMBLED NRZI (afterStartFlags 0 State.init))) =
        [1, 1, 1, 1, 0, 1, 0, 0, 0] := by
  rw [frame_ret, send_data_newBits, send_data_stuff, afterStartFlags_stuff]
  decide

/-- C18, amended: `calculate_len` never overestimates the payload and checksum
bits of the frame sent with `bad_fcs = 0` (its return value minus 48), and the
two are equal whenever no insertion made by `send_data` is caused by a run of
1s that crosses a byte boundary of the sequence payload bytes, checksum low
byte, checksum high byte. -/
theorem calculate_len_le_frame (fcs_calc : List Nat → Int → Nat) (chan : Nat) (fbuf : List Nat)
    (flen : Int) (s : State) :
    calculate_len fcs_calc fbuf flen ≤ (hdlc_send_frame fcs_calc chan fbuf flen 0 s).1 - 48 ∧
      (crossInsert 0 (payload fbuf flen ++ fcsBytes (fcs_value fcs_calc fbuf flen) 0) = false →
        calculate_len fcs_calc fbuf flen =
          (hdlc_send_frame fcs_calc chan fbuf flen 0 s).1 - 48) := by
  have hr : (hdlc_send_frame fcs_calc chan fbuf flen 0 s).1 - 48 =
      ((hdlcStuff 0 (bytesBits
        (payload fbuf flen ++ fcsBytes (fcs_value fcs_calc fbuf flen) 0))).length : Int) := by
    rw [frame_ret, length_frameBits]
    push_cast
    ring
  rw [hr, calculate_len_eq]
  exact ⟨calcSum_le 0 (le_refl _) (by decide) _,
    fun hx => calcSum_eq_of_no_cross 0 (le_refl _) (by decide) _ hx⟩

/-- Witness for C18: the payload `[0x00]` with checksum 0 has no insertion at
all, and the two counts are equal. -/
theorem calculate_len_le_frame_witness :
    crossInsert 0 (payload [0x00] 1 ++ fcsBytes (fcs_value (fun _ _ => 0) [0x00] 1) 0) = false ∧
      calculate_len (fun _ _ => 0) [0x00] 1 =
        (hdlc_send_frame (fun _ _ => 0) 0 [0x00] 1 0 State.init).1 - 48 :=
  ⟨by decide, (calculate_len_le_frame (fun _ _ => 0) 0 [0x00] 1 State.init).2 (by decide)⟩

/-- C19: stuffing overhead.  For `flen ≥ 0`, with `D = 8 * (flen + 2)`, the
return value `r` of `hdlc_send_frame` satisfies `48 + D ≤ r ≤ 48 + D + D / 5`,
for every checksum and either value of `bad_fcs`. -/
theorem hdlc_send_frame_overhead (fcs_calc : List Nat → Int → Nat) (chan : Nat)
    (fbuf : List Nat) (flen bad_fcs : Int) (s : State) (h : 0 ≤ flen) :
    48 + 8 * (flen + 2) ≤ (hdlc_send_frame fcs_calc chan fbuf flen bad_fcs s).1 ∧
      (hdlc_send_frame fcs_calc chan fbuf flen bad_fcs s).1 ≤
        48 + 8 * (flen + 2) + 8 * (flen + 2) / 5 := by
  have hge := length_hdlcStuff_ge 0
    (bytesBits (payload fbuf flen ++ fcsBytes (fcs_value fcs_calc fbuf flen) bad_fcs))
  have hle := length_hdlcStuff_le 0 (le_refl _) (by decide)
    (bytesBits (payload fbuf flen ++ fcsBytes (fcs_value fcs_calc fbuf flen) bad_fcs))
  have hra := runAfter_range 0 (le_refl _) (by decide)
    (bytesBits (payload fbuf flen ++ fcsBytes (fcs_value fcs_calc fbuf flen) bad_fcs))
  have hn : (bytesBits (payload fbuf flen ++
      fcsBytes (fcs_value fcs_calc fbuf flen) bad_fcs)).length = 8 * (flen.toNat + 2) := by
    rw [length_bytesBits, List.length_append, length_payload, length_fcsBytes]
  rw [hn] at hge hle
  rw [frame_ret, length_frameBits]
  push_cast at hle ⊢
  have ht : ((flen.toNat : Nat) : Int) = flen := Int.toNat_of_nonneg h
  rw [ht] at hle
  have hge2 : (8 * (flen + 2) : Int) ≤ ((hdlcStuff 0 (bytesBits (payload fbuf flen ++
      fcsBytes (fcs_value fcs_calc fbuf flen) bad_fcs))).length : Int) := by
    have : ((8 * (flen.toNat + 2) : Nat) : Int) ≤ _ := Int.ofNat_le.2 hge
    push_cast at this
    rw [ht] at this
    exact this
  omega

/-- Witness for C19: payload `[0xFF]`, checksum 0x1234, from the initial state. -/
theorem hdlc_send_frame_overhead_witness :
    (0 : Int) ≤ 1 ∧
      48 + 8 * ((1 : Int) + 2) ≤ (hdlc_send_frame (fun _ _ => 0x1234) 0 [0xFF] 1 0 State.init).1 :=
  ⟨by decide,
    (hdlc_send_frame_overhead (fun _ _ => 0x1234) 0 [0xFF] 1 0 State.init (by decide)).1⟩

/-- C20: two runs of `hdlc_send_frame` with the same channel, payload, length,
checksum and `bad_fcs`, from arbitrary states whose levels on the channel are 0
or 1, return the same count and hand the same logical bits to `send_bit`; the
forwarded line levels are identical when the two initial levels are equal and
bit by bit complementary when they differ. -/
theorem hdlc_send_frame_state_independent (fcs_calc : List Nat → Int → Nat) (chan : Nat)
    (fbuf : List Nat) (flen bad_fcs : Int) (s1 s2 : State)
    (h1 : s1.output chan = 0 ∨ s1.output chan = 1)
    (h2 : s2.output chan = 0 ∨ s2.output chan = 1) :
    (hdlc_send_frame fcs_calc chan fbuf flen bad_fcs s1).1 =
        (hdlc_send_frame fcs_calc chan fbuf flen bad_fcs s2).1 ∧
      newBits s1 (hdlc_send_frame fcs_calc chan fbuf flen bad_fcs s1).2 =
        newBits s2 (hdlc_send_frame fcs_calc chan fbuf flen bad_fcs s2).2 ∧
      newLevels s2 (hdlc_send_frame fcs_calc chan fbuf flen bad_fcs s2).2 =
        (if s1.output chan = s2.output chan then
          newLevels s1 (hdlc_send_frame fcs_calc chan fbuf flen bad_fcs s1).2
        else
          (newLevels s1 (hdlc_send_frame fcs_calc chan fbuf flen bad_fcs s1).2).map
            (fun l => 1 - l)) := by
  refine ⟨?_, ?_, ?_⟩
  · rw [frame_ret, frame_ret]
  · rw [frame_newBits, frame_newBits]
  · rw [frame_newLevels, frame_newLevels]
    split_ifs with he
    · rw [he]
    · have h21 : s2.output chan = 1 - s1.output chan := by omega
      rw [h21, lineLevels_compl _ h1]

/-- Witness for C20: the initial state and the state after one 0 bit, whose
level on channel 0 is 1. -/
theorem hdlc_send_frame_state_independent_witness :
    (State.init.output 0 = 0 ∨ State.init.output 0 = 1) ∧
      ((send_bit 0 0 SCRAMBLED NRZI State.init).output 0 = 0 ∨
        (send_bit 0 0 SCRAMBLED NRZI State.init).output 0 = 1) ∧
      (hdlc_send_frame (fun _ _ => 0x1234) 0 [0xFF] 1 0 State.init).1 =
        (hdlc_send_frame (fun _ _ => 0x1234) 0 [0xFF] 1 0
          (send_bit 0 0 SCRAMBLED NRZI State.init)).1 :=
  ⟨Or.inl rfl, Or.inr rfl,
    (hdlc_send_frame_state_independent (fun _ _ => 0x1234) 0 [0xFF] 1 0 State.init
      (send_bit 0 0 SCRAMBLED NRZI State.init) (Or.inl rfl) (Or.inr rfl)).1⟩

end HdlcSend
